import Mathlib

set_option maxHeartbeats 1000000

/-- Lexical value of the Unbound sentinel, serialized as the literal UNBOUND. -/
def sUNBOUND : String := "UNBOUND"

/-- RDF term model of the engine: IRIs, blank nodes, literals carrying a
datatype IRI and a language tag, SPARQL variables, and the synthetic Unbound
sentinel produced when expression evaluation fails (spec section 3). -/
inductive Term where
  | iri (value : String)
  | blank (value : String)
  | lit (value : String) (datatype : String) (lang : String)
  | tvar (name : String)
  | unbound
deriving DecidableEq

/-- Lexical value field of a term, the value property of RDF/JS terms. -/
def Term.value : Term → String
  | .iri v => v
  | .blank v => v
  | .lit v _ _ => v
  | .tvar n => n
  | .unbound => sUNBOUND

/-- Test for a SPARQL variable term, rdf.isVariable. -/
def Term.isVariable : Term → Bool
  | .tvar _ => true
  | _ => false

/-- Test for an RDF literal, rdf.isLiteral. -/
def Term.isLiteral : Term → Bool
  | .lit _ _ _ => true
  | _ => false

/-- Test for a blank node, rdf.isBlankNode. -/
def Term.isBlank : Term → Bool
  | .blank _ => true
  | _ => false

/-- Entry list of a JS Map from variable names to terms, in insertion order. -/
abbrev Entries := List (String × Term)

/-- JS Map.set as used by BindingBase.set (bindings.ts 591): update the entry
in place when the key already exists, keeping its position, and append the
new entry otherwise. -/
def setEntry (l : Entries) (k : String) (v : Term) : Entries :=
  if l.any (fun p => p.1 == k) then
    l.map (fun p => if p.1 == k then (k, v) else p)
  else l ++ [(k, v)]

/-- A set of mappings from variable names to RDF terms (bindings.ts
BindingBase), together with the one property-bag entry the modelled
operations read: the optional __aggregate binding group. -/
structure Bindings where
  entries : Entries
  aggProp : Option (List (String × List Term))
deriving DecidableEq

/-- The empty set of mappings with an empty property bag. -/
def Bindings.empty : Bindings := ⟨[], none⟩

/-- BindingBase.get (bindings.ts 563): the term associated with a variable
name, or none when the variable is absent. -/
def Bindings.get (b : Bindings) (k : String) : Option Term :=
  (b.entries.find? (fun p => p.1 == k)).map Prod.snd

/-- BindingBase.has (bindings.ts 584) restricted to variable names. -/
def Bindings.hasKey (b : Bindings) (k : String) : Bool :=
  b.entries.any (fun p => p.1 == k)

/-- Number of mappings in the set, BindingBase.size. -/
def Bindings.size (b : Bindings) : Nat := b.entries.length

/-- The variable names of the set, in iteration order. -/
def Bindings.keys (b : Bindings) : List String := b.entries.map Prod.fst

/-- BindingBase.set (bindings.ts 591). -/
def Bindings.set (b : Bindings) (k : String) (v : Term) : Bindings :=
  ⟨setEntry b.entries k v, b.aggProp⟩

/-- Bindings.union (bindings.ts 292): clone the left operand, then set every
mapping of the right operand, so the right operand overwrites on conflict;
the clone carries the left operand's properties. -/
def Bindings.union (b other : Bindings) : Bindings :=
  ⟨other.entries.foldl (fun acc p => setEntry acc p.1 p.2) b.entries, b.aggProp⟩

/-- Bindings.equals (bindings.ts 237): false when the sizes differ, otherwise
every variable of the other set must be present in this set with an equal
term. The JS strict disequality on terms is modelled as structural
disequality of term values. -/
def Bindings.equals (b other : Bindings) : Bool :=
  if b.size != other.size then false
  else other.keys.all (fun k => b.hasKey k && (b.get k == other.get k))

/-- Substitution of one variable position by Bindings.bound: a variable the
mapping binds is replaced by its term, everything else is kept. -/
def Bindings.boundTerm (b : Bindings) (t : Term) : Term :=
  match t with
  | .tvar n =>
    match b.get n with
    | some v => v
    | none => .tvar n
  | other => other

/-- A triple pattern: subject, predicate and object terms; property-path
predicates are outside the model. -/
structure Triple where
  subject : Term
  predicate : Term
  object : Term
deriving DecidableEq

/-- Bindings.bound (bindings.ts 254): substitute every variable of a triple
pattern that the mapping binds. -/
def Bindings.bound (b : Bindings) (t : Triple) : Triple :=
  ⟨b.boundTerm t.subject, b.boundTerm t.predicate, b.boundTerm t.object⟩

/-- Error raised by BindingBase.fromMapping on an illegal binding value. -/
inductive JoinErr where
  | badBindingValue
deriving DecidableEq

/-- Recursion of fromMapping over the object entries: set each entry in order,
throwing on a Variable or BlankNode value (Quads and property paths are
outside the model). -/
def fromMappingGo (acc : Bindings) : Entries → Except JoinErr Bindings
  | [] => .ok acc
  | (k, v) :: rest =>
    match v with
    | .tvar _ => .error .badBindingValue
    | .blank _ => .error .badBindingValue
    | _ => fromMappingGo (acc.set k v) rest

/-- BindingBase.fromMapping (bindings.ts 479): build a set of mappings from a
partially bound object, rejecting Variable and BlankNode values. -/
def fromMappingE (l : Entries) : Except JoinErr Bindings :=
  fromMappingGo Bindings.empty l

theorem setEntry_eq_map (l : Entries) (k : String) (v : Term)
    (hany : l.any (fun p => p.1 == k) = true) :
    setEntry l k v = l.map (fun p => if p.1 == k then (k, v) else p) := by
  unfold setEntry
  rw [hany, if_pos rfl]

theorem setEntry_eq_append (l : Entries) (k : String) (v : Term)
    (hany : l.any (fun p => p.1 == k) = false) :
    setEntry l k v = l ++ [(k, v)] := by
  unfold setEntry
  rw [hany, if_neg (by simp)]

theorem setEntry_cons_ne (p : String × Term) (t : Entries) (k : String) (v : Term)
    (h : (p.1 == k) = false) : setEntry (p :: t) k v = p :: setEntry t k v := by
  by_cases hany : t.any (fun q => q.1 == k) = true
  · rw [setEntry_eq_map (p :: t) k v (by simp [List.any_cons, hany]),
      setEntry_eq_map t k v hany, List.map_cons, if_neg (by simp [h])]
  · have hany2 : t.any (fun q => q.1 == k) = false := Bool.eq_false_iff.mpr hany
    rw [setEntry_eq_append (p :: t) k v (by rw [List.any_cons, h, hany2]; rfl),
      setEntry_eq_append t k v hany2, List.cons_append]

theorem setEntry_find_self (l : Entries) (k : String) (v : Term) :
    (setEntry l k v).find? (fun p => p.1 == k) = some (k, v) := by
  induction l with
  | nil =>
    rw [setEntry_eq_append [] k v (by simp), List.nil_append,
      List.find?_cons_of_pos _ (by simp)]
  | cons p t ih =>
    by_cases hp : (p.1 == k) = true
    · rw [setEntry_eq_map (p :: t) k v (by simp [List.any_cons, hp]), List.map_cons,
        if_pos hp, List.find?_cons_of_pos _ (by simp)]
    · have hp2 : (p.1 == k) = false := by simpa using hp
      rw [setEntry_cons_ne p t k v hp2, List.find?_cons_of_neg _ (by simp [hp2])]
      exact ih

theorem find?_map_overwrite (t : Entries) (k kq : String) (v : Term) (h : kq ≠ k) :
    (t.map (fun q => if q.1 == k then (k, v) else q)).find? (fun p => p.1 == kq) =
      t.find? (fun p => p.1 == kq) := by
  have hkkq : ((k : String) == kq) = false := beq_eq_false_iff_ne.mpr (Ne.symm h)
  induction t with
  | nil => simp
  | cons q rest ih =>
    by_cases hq : (q.1 == k) = true
    · have hqk : q.1 = k := by simpa using hq
      have h2 : (q.1 == kq) = false := by simp [hqk, hkkq]
      rw [List.map_cons, if_pos hq, List.find?_cons_of_neg _ (by simp [hkkq]),
        List.find?_cons_of_neg _ (by simp [h2])]
      exact ih
    · have hq2 : (q.1 == k) = false := by simpa using hq
      rw [List.map_cons, if_neg (by simp [hq2])]
      by_cases hm : (q.1 == kq) = true
      · rw [List.find?_cons_of_pos _ (by simp [hm]), List.find?_cons_of_pos _ (by simp [hm])]
      · have hm2 : (q.1 == kq) = false := by simpa using hm
        rw [List.find?_cons_of_neg _ (by simp [hm2]), List.find?_cons_of_neg _ (by simp [hm2])]
        exact ih

theorem setEntry_find_ne (l : Entries) (k kq : String) (v : Term) (h : kq ≠ k) :
    (setEntry l k v).find? (fun p => p.1 == kq) = l.find? (fun p => p.1 == kq) := by
  have hkkq : ((k : String) == kq) = false := beq_eq_false_iff_ne.mpr (Ne.symm h)
  induction l with
  | nil =>
    rw [setEntry_eq_append [] k v (by simp), List.nil_append,
      List.find?_cons_of_neg _ (by simp [hkkq])]
  | cons p t ih =>
    by_cases hp : (p.1 == k) = true
    · have hpk : p.1 = k := by simpa using hp
      have h2 : (p.1 == kq) = false := by simp [hpk, hkkq]
      rw [setEntry_eq_map (p :: t) k v (by simp [List.any_cons, hp]), List.map_cons,
        if_pos hp, List.find?_cons_of_neg _ (by simp [hkkq]),
        List.find?_cons_of_neg _ (by simp [h2])]
      exact find?_map_overwrite t k kq v h
    · have hp2 : (p.1 == k) = false := by simpa using hp
      rw [setEntry_cons_ne p t k v hp2]
      by_cases hm : (p.1 == kq) = true
      · rw [List.find?_cons_of_pos _ (by simp [hm]), List.find?_cons_of_pos _ (by simp [hm])]
      · have hm2 : (p.1 == kq) = false := by simpa using hm
        rw [List.find?_cons_of_neg _ (by simp [hm2]), List.find?_cons_of_neg _ (by simp [hm2])]
        exact ih

theorem foldl_set_not_mem (l : Entries) (acc : Entries) (k : String)
    (h : ∀ p ∈ l, (p.1 == k) = false) :
    (l.foldl (fun a p => setEntry a p.1 p.2) acc).find? (fun p => p.1 == k) =
      acc.find? (fun p => p.1 == k) := by
  induction l generalizing acc with
  | nil => rfl
  | cons q t ih =>
    rw [List.foldl_cons, ih _ (fun p hp => h p (List.mem_cons_of_mem q hp))]
    have hq : (q.1 == k) = false := h q (List.mem_cons_self q t)
    exact setEntry_find_ne acc q.1 k q.2 (Ne.symm (beq_eq_false_iff_ne.mp hq))

theorem foldl_set_mem_nodup (l : Entries) (acc : Entries) (k : String)
    (hnd : (l.map Prod.fst).Nodup)
    (hmem : (l.find? (fun p => p.1 == k)).isSome = true) :
    (l.foldl (fun a p => setEntry a p.1 p.2) acc).find? (fun p => p.1 == k) =
      l.find? (fun p => p.1 == k) := by
  induction l generalizing acc with
  | nil => simp at hmem
  | cons q t ih =>
    rw [List.map_cons] at hnd
    rw [List.foldl_cons]
    by_cases hq : (q.1 == k) = true
    · have hqk : q.1 = k := beq_iff_eq.mp hq
      have hnotin : Prod.fst q ∉ t.map Prod.fst := (List.nodup_cons.mp hnd).1
      have hset : ∀ p ∈ t, (p.1 == k) = false := by
        intro p hp
        apply beq_eq_false_iff_ne.mpr
        intro hc
        exact hnotin (by
          show q.1 ∈ t.map Prod.fst
          rw [hqk, ← hc]
          exact List.mem_map_of_mem Prod.fst hp)
      rw [foldl_set_not_mem t _ k hset]
      rw [List.find?_cons_of_pos _ (by simp [hq])]
      cases q with
      | mk q1 q2 =>
        have hq1 : q1 = k := hqk
        subst hq1
        rw [setEntry_find_self]
    · have hq2 : (q.1 == k) = false := Bool.eq_false_iff.mpr hq
      rw [List.find?_cons_of_neg _ (by simp [hq2])] at hmem
      rw [List.find?_cons_of_neg _ (by simp [hq2])]
      exact ih (setEntry acc q.1 q.2) (List.nodup_cons.mp hnd).2 hmem

theorem get_isSome_of_get_eq (b : Bindings) (k : String) (v : Term)
    (h : b.get k = some v) : b.hasKey k = true := by
  unfold Bindings.get at h
  unfold Bindings.hasKey
  rcases hf : b.entries.find? (fun p => p.1 == k) with _ | p
  · rw [hf] at h; simp at h
  · have := List.find?_some hf
    have hmem := List.mem_of_find?_eq_some hf
    simp only [List.any_eq_true]
    exact ⟨p, hmem, this⟩

theorem union_get_of_right (a b : Bindings) (hnd : b.keys.Nodup) (k : String)
    (hk : b.hasKey k = true) : (a.union b).get k = b.get k := by
  unfold Bindings.union Bindings.get
  have hmem : (b.entries.find? (fun p => p.1 == k)).isSome = true := by
    unfold Bindings.hasKey at hk
    rcases List.any_eq_true.mp hk with ⟨p, hp, hpk⟩
    apply List.find?_isSome.mpr
    exact ⟨p, hp, hpk⟩
  rw [foldl_set_mem_nodup b.entries a.entries k hnd hmem]

theorem union_get_of_left (a b : Bindings) (k : String)
    (hk : b.hasKey k = false) : (a.union b).get k = a.get k := by
  unfold Bindings.union Bindings.get
  have hall : ∀ p ∈ b.entries, (p.1 == k) = false := by
    intro p hp
    unfold Bindings.hasKey at hk
    by_contra hc
    have : b.entries.any (fun p => p.1 == k) = true :=
      List.any_eq_true.mpr ⟨p, hp, by simpa using hc⟩
    rw [this] at hk
    exact Bool.noConfusion hk
  rw [foldl_set_not_mem b.entries a.entries k hall]

theorem set_get_self (b : Bindings) (k : String) (v : Term) :
    (b.set k v).get k = some v := by
  unfold Bindings.set Bindings.get
  rw [setEntry_find_self]
  rfl

theorem set_get_ne (b : Bindings) (k kq : String) (v : Term) (h : kq ≠ k) :
    (b.set k v).get kq = b.get kq := by
  unfold Bindings.set Bindings.get
  rw [setEntry_find_ne b.entries k kq v h]

theorem fromMappingGo_ok_shape (l : Entries) : ∀ (acc m : Bindings),
    fromMappingGo acc l = .ok m →
    m = ⟨l.foldl (fun a p => setEntry a p.1 p.2) acc.entries, acc.aggProp⟩ := by
  induction l with
  | nil =>
    intro acc m h
    injection h with h2
    subst h2
    rfl
  | cons q t ih =>
    intro acc m h
    cases q with
    | mk k v =>
      cases v with
      | tvar n => exact absurd h (by simp [fromMappingGo])
      | blank n => exact absurd h (by simp [fromMappingGo])
      | iri s => rw [List.foldl_cons]; exact ih (Bindings.set acc k (.iri s)) m h
      | lit a c d => rw [List.foldl_cons]; exact ih (Bindings.set acc k (.lit a c d)) m h
      | unbound => rw [List.foldl_cons]; exact ih (Bindings.set acc k .unbound) m h

theorem fromMappingE_ok_shape (l : Entries) (m : Bindings)
    (h : fromMappingE l = .ok m) :
    m = ⟨l.foldl (fun a p => setEntry a p.1 p.2) [], none⟩ :=
  fromMappingGo_ok_shape l Bindings.empty m h

theorem foldl_set_get (l : Entries) (hnd : (l.map Prod.fst).Nodup) (k : String) :
    (Bindings.mk (l.foldl (fun a p => setEntry a p.1 p.2) []) none).get k =
      (l.find? (fun p => p.1 == k)).map Prod.snd := by
  unfold Bindings.get
  rcases hf : (l.find? (fun p => p.1 == k)) with _ | p
  · have hall := List.find?_eq_none.mp hf
    rw [foldl_set_not_mem l [] k (fun p hp => by simpa using hall p hp), hf]
    rfl
  · rw [foldl_set_mem_nodup l [] k hnd (by rw [hf]; rfl), hf]

theorem fromMappingE_ok_get (l : Entries) (m : Bindings)
    (hnd : (l.map Prod.fst).Nodup) (h : fromMappingE l = .ok m) (k : String) :
    m.get k = (l.find? (fun p => p.1 == k)).map Prod.snd := by
  rw [fromMappingE_ok_shape l m h]
  exact foldl_set_get l hnd k

/-- Capability bits a graph backend may advertise (graph_capability.ts is not
under src; the UNION bit is the one read by the BGP stage). -/
inductive GraphCapability where
  | unionCap
  | fullTextSearchCap
  | estimateCardinalityCap
deriving DecidableEq

/-- Graph backend handle. Modelled from the spec (section 4.2, graph.ts is
not under src): the ground triples of the graph, the evalBGP bulk evaluator
the backend may override, and the capability bitset. -/
structure Graph where
  triples : List Triple
  evalBGP : List Triple → List Bindings
  caps : List GraphCapability

/-- Graph._isCapable: membership of a capability in the backend bitset. -/
def Graph.isCapable (g : Graph) (c : GraphCapability) : Bool :=
  g.caps.contains c

/-- One-position wildcard match: a variable in the pattern matches anything,
any other term must be equal. -/
def positionMatches (p : Term) (t : Term) : Bool :=
  if p.isVariable then true else p == t

/-- Wildcard match of a triple against a pattern, position by position. -/
def tripleMatches (pat : Triple) (t : Triple) : Bool :=
  positionMatches pat.subject t.subject &&
    positionMatches pat.predicate t.predicate &&
    positionMatches pat.object t.object

/-- Modelled from the spec: Graph.find (section 4.2, graph.ts not under src)
returns the triples of the graph matching the pattern, where variables act
as wildcards. -/
def Graph.find (g : Graph) (pat : Triple) : List Triple :=
  g.triples.filter (tripleMatches pat)

/-- One position of the object built by pickBy in indexJoin: an entry from
the variable's name to the matched triple's component when the bounded
pattern position is still a variable, nothing otherwise. -/
def posEntry (patternPos : Term) (itemPos : Term) : Entries :=
  match patternPos with
  | .tvar n => [(n, itemPos)]
  | _ => []

/-- The object built by pickBy and mapKeys in indexJoin (index-join.ts 61):
for every position of the bounded pattern that is still a variable, an entry
from that variable's name to the matched triple's component, in subject,
predicate, object order; a later entry of the same name overwrites an
earlier one when the mapping is built. -/
def tempEntries (bounded : Triple) (item : Triple) : Entries :=
  posEntry bounded.subject item.subject ++ posEntry bounded.predicate item.predicate ++
    posEntry bounded.object item.object

/-- mapKeys builds its result object by per-key assignment (index-join.ts 64):
when two entries are renamed to the same key, the key keeps its first
position and takes the last value, like Map.set; Object.entries of the
result is therefore this duplicate-key collapse of the entry list. -/
def collapseKeys (l : Entries) : Entries :=
  l.foldl (fun a p => setEntry a p.1 p.2) []

/-- indexJoin (index-join.ts 49): index nested loop join between a source of
mappings and a triple pattern; every input mapping bounds the pattern, each
matching triple is turned into a row object over the remaining variables
(pickBy then mapKeys, which collapses duplicate variable names before any
validation), the collapsed row is turned into a mapping via fromMapping, and
that mapping is unioned with the input mapping (the input overwrites). A
fromMapping rejection surfaces as an error element. -/
def indexJoin (source : List Bindings) (pattern : Triple) (g : Graph) :
    List (Except JoinErr Bindings) :=
  source.flatMap (fun bindings =>
    let boundedPattern := bindings.bound pattern
    (g.find boundedPattern).map (fun item =>
      (fromMappingE (collapseKeys (tempEntries boundedPattern item))).map
        (fun m => m.union bindings)))

/-- Result of a SPARQL expression evaluation: a term, a term array or iterable
whose elements may be null, the null error signal, or a thrown JS exception
escaping the evaluator (sparql-expression.ts ExpressionOutput plus throw). -/
inductive EvalResult where
  | term (t : Term)
  | list (ts : List (Option Term))
  | nullRes
  | thrown
deriving DecidableEq

/-- Compiled SPARQL expression tree (sparql-expression.ts). Operation nodes
carry their entry of the built-in operator table and aggregate nodes their
entry of the aggregate table, as sparql-operations.ts and
sparql-aggregates.ts are not under src; function-call nodes carry the user
custom function, whose thrown result models a JS throw. -/
inductive Expr where
  | evar (name : String)
  | constant (t : Term)
  | termList (ts : List Term)
  | operation (op : List EvalResult → EvalResult) (args : List Expr)
  | aggregate (agg : List (String × List Term) → EvalResult)
  | functionCall (f : List EvalResult → EvalResult) (args : List Expr)

mutual
/-- Evaluation of a compiled expression (sparql-expression.ts 322): a variable
reads the mapping (null when absent), a term is constant, a term list is
returned verbatim, an operation evaluates its arguments and dispatches (an
argument throw propagates), an aggregate reads the __aggregate property and
throws the aggregation-outside-group SyntaxError when it is absent, and a
function call evaluates inside a try block that converts any throw into the
null error signal (sparql-expression.ts 414). -/
def evalExpr : Expr → Bindings → EvalResult
  | .evar n, b =>
    match b.get n with
    | some t => .term t
    | none => .nullRes
  | .constant t, _ => .term t
  | .termList ts, _ => .list (ts.map some)
  | .operation op args, b =>
    match evalArgsE args b with
    | none => .thrown
    | some vs => op vs
  | .aggregate agg, b =>
    match b.aggProp with
    | some rows => agg rows
    | none => .thrown
  | .functionCall f args, b =>
    match evalArgsE args b with
    | none => .nullRes
    | some vs =>
      match f vs with
      | .thrown => .nullRes
      | r => r

/-- Left-to-right evaluation of argument expressions; none when one of them
throws. -/
def evalArgsE : List Expr → Bindings → Option (List EvalResult)
  | [], _ => some []
  | e :: rest, b =>
    match evalExpr e b with
    | .thrown => none
    | r =>
      match evalArgsE rest b with
      | none => none
      | some vs => some (r :: vs)
end

/-- bind operator (bind.ts 134): evaluate the expression for every input
mapping inside a try block. A term result binds the variable on a clone of
the input; the null error signal binds the Unbound sentinel; an array or
iterable produces one clone per element, binding Unbound for null elements;
a thrown evaluation is silenced and produces no mapping for that input. -/
def bindOperator (source : List Bindings) (targetVariable : String)
    (expression : Expr) : List Bindings :=
  source.flatMap (fun bindings =>
    match evalExpr expression bindings with
    | .thrown => []
    | .nullRes => [bindings.set targetVariable .unbound]
    | .term t => [bindings.set targetVariable t]
    | .list ts =>
      ts.map (fun elem =>
        match elem with
        | none => bindings.set targetVariable .unbound
        | some t => bindings.set targetVariable t))

/-- Lexical form of the boolean true literal. -/
def sTrue : String := "true"

/-- Lexical form of the literal 1. -/
def sOne : String := "1"

/-- Modelled from the spec: effective boolean value used by the FILTER stage
(its operator file is not under src); a minimal literal-based reading. -/
def effectiveBoolean (t : Term) : Bool :=
  match t with
  | .lit v _ _ => v == sTrue || v == sOne
  | _ => false

/-- Modelled from the spec: the FILTER stage (section 4.4, operator file not
under src) keeps a mapping only when the expression evaluates to a term with
a true effective boolean value; the null error signal and a thrown
evaluation both exclude the solution and the query continues. -/
def filterOperator (source : List Bindings) (expression : Expr) : List Bindings :=
  source.filter (fun bindings =>
    match evalExpr expression bindings with
    | .term t => effectiveBoolean t
    | _ => false)

/-- Execution context fields read by the modelled operations. Modelled from
the spec (section 3, execution-context.ts is not under src): the per-query
bag holds the current cache pointer, the LIMIT/OFFSET flag and option flags
such as FORCE_INDEX_JOIN. -/
structure ExecutionContext where
  cacheInstalled : Bool
  hasLimitOffset : Bool
  forceIndexJoin : Bool
deriving DecidableEq

/-- Modelled from the spec: ExecutionContext.cachingEnabled (not under src)
holds when a cache is installed and the enclosing query carries no
LIMIT/OFFSET modifier (sections 4.5 and 4.7 of the spec). -/
def ExecutionContext.cachingEnabled (ctx : ExecutionContext) : Bool :=
  ctx.cacheInstalled && !ctx.hasLimitOffset

/-- Modelled from the spec: ExecutionContext.clone derives a child context
carrying the same properties (plan-builder.ts 472 resets no property used
here). -/
def ExecutionContext.clone (ctx : ExecutionContext) : ExecutionContext := ctx

/-- Cache interactions performed by the BGP evaluation path. -/
inductive CacheEvent where
  | readBGP (bgp : List Triple)
  | writeBGP (bgp : List Triple)
deriving DecidableEq

/-- Modelled from the spec: evaluation.cacheEvalBGP (section 4.5 usage, not
under src) evaluates a BGP through the semantic cache, reading a cached
subset and writing the produced mappings; the mappings it yields coincide
with direct evaluation and the interactions are recorded as events. -/
def cacheEvalBGP (bgp : List Triple) (g : Graph) :
    List Bindings × List CacheEvent :=
  (g.evalBGP bgp, [CacheEvent.readBGP bgp, CacheEvent.writeBGP bgp])

/-- bgpEvaluation (bgp-stage-builder.ts 657): for every input mapping, bound
the BGP with the mapping, evaluate the bounded BGP through the cache when
caching is enabled and directly through Graph.evalBGP otherwise, and union
every produced mapping with the input mapping; cache interactions are
collected as events. -/
def bgpEvaluation (source : List Bindings) (bgp : List Triple) (g : Graph)
    (context : ExecutionContext) : List Bindings × List CacheEvent :=
  let results := source.map (fun bindings =>
    let boundedBGP := bgp.map bindings.bound
    let step :=
      if context.cachingEnabled then cacheEvalBGP boundedBGP g
      else (g.evalBGP boundedBGP, [])
    (step.1.map (fun item => item.union bindings), step.2))
  ((results.map Prod.fst).flatten, (results.map Prod.snd).flatten)

/-- Physical plan chosen by the BGP stage; the bound-join operator itself
(bound-join.ts) is not under src and stays uninterpreted. -/
inductive JoinPlan where
  | boundJoinPlan (source : List Bindings) (patterns : List Triple)
  | indexLoopPlan (outcome : List Bindings × List CacheEvent)

/-- BGPStageBuilder._buildIterator (bgp-stage-builder.ts 854): bound join when
the graph advertises the UNION capability and the context does not carry the
FORCE_INDEX_JOIN property, the index-nested-loop bgpEvaluation otherwise. -/
def buildIterator (source : List Bindings) (g : Graph) (patterns : List Triple)
    (context : ExecutionContext) : JoinPlan :=
  if g.isCapable .unionCap && !context.forceIndexJoin then
    .boundJoinPlan source patterns
  else
    .indexLoopPlan (bgpEvaluation source patterns g context)

/-- Query node fields read by the modelled plan construction. -/
structure QueryNode where
  limit : Option Nat
  offset : Option Nat
deriving DecidableEq

/-- PlanBuilder._buildQueryPlan (plan-builder.ts 290): from the beginning,
detect any LIMIT/OFFSET modifier and record HAS_LIMIT_OFFSET on the
execution context; the WHERE clause (line 305) is then built under this
context. -/
def whereContext (q : QueryNode) (ctx : ExecutionContext) : ExecutionContext :=
  { ctx with hasLimitOffset := q.limit.isSome || q.offset.isSome }

/-- Parameters of a LRUBGPCache: maximum number of items and the age argument
passed to the constructor. -/
structure LRUBGPCacheConfig where
  maxSize : Nat
  maxAge : Nat
deriving DecidableEq

/-- PlanBuilder.useCache (plan-builder.ts 183): with no custom cache given,
install a LRUBGPCache with maxSize 500 and the literal age argument
1200 * 60 * 60; a custom cache is installed as given. -/
def useCache (customCache : Option LRUBGPCacheConfig) : LRUBGPCacheConfig :=
  match customCache with
  | none => ⟨500, 1200 * 60 * 60⟩
  | some c => c

/-- WHERE-clause group kinds dispatched by the plan builder (sparqljs pattern
nodes). Only the fields read by the modelled ordering and merging are kept:
the triples of a BGP and the name of a GRAPH clause; subpatterns are not
read by these operations. -/
inductive PatternGroup where
  | bgpG (triples : List Triple)
  | graphG (name : Term)
  | valuesG
  | filterG
  | groupG
  | optionalG
  | unionG
  | minusG
  | serviceG
  | bindG
deriving DecidableEq

/-- Ordering rank of PlanBuilder._buildWhere (plan-builder.ts 413): graph
clauses with a variable name rank 5, graph clauses with a constant name and
BGPs rank 0, VALUES ranks 3, FILTER ranks 4, every other group ranks 1. -/
def groupRank : PatternGroup → Nat
  | .graphG name => if name.isVariable then 5 else 0
  | .bgpG _ => 0
  | .valuesG => 3
  | .filterG => 4
  | _ => 1

/-- Lodash sortBy is a stable sort by the rank key; a stable sort of a list
by a key taking values in 0, 1, 3, 4, 5 is uniquely the concatenation of the
equal-rank sublists in increasing rank order, which is how the sort of
_buildWhere is rendered here. -/
def sortGroups (l : List PatternGroup) : List PatternGroup :=
  l.filter (fun g => groupRank g == 0) ++
    l.filter (fun g => groupRank g == 1) ++
    l.filter (fun g => groupRank g == 3) ++
    l.filter (fun g => groupRank g == 4) ++
    l.filter (fun g => groupRank g == 5)

/-- Merge loop of _buildWhere (plan-builder.ts 437): walk the groups keeping
the last pushed group; when the current and the previous groups are both
BGPs, extend the triples of the last pushed group, otherwise push. The loop
is rendered as a recursion carrying the currently accumulated group. -/
def mergeGo (cur : PatternGroup) : List PatternGroup → List PatternGroup
  | [] => [cur]
  | g :: rest =>
    match cur, g with
    | .bgpG ts, .bgpG us => mergeGo (.bgpG (ts ++ us)) rest
    | _, _ => cur :: mergeGo g rest

/-- Entry point of the merge loop of _buildWhere. -/
def mergeBGPs : List PatternGroup → List PatternGroup
  | [] => []
  | g :: rest => mergeGo g rest

/-- PatternGroup list compiled by _buildWhere when no VALUES clause is present:
groups are sorted by rank and consecutive BGPs are merged (with a VALUES
clause present, _buildWhere instead rewrites the body per VALUES row and the
rewritten bodies re-enter this same pipeline). -/
def whereMerged (groups : List PatternGroup) : List PatternGroup :=
  mergeBGPs (sortGroups groups)

/-- Merging of every run of consecutive BGP groups into a single BGP whose
triple list is the concatenation in order, written as the specification
describes it; used as the refinement target of mergeBGPs. -/
def specMerge : List PatternGroup → List PatternGroup
  | [] => []
  | .bgpG ts :: rest =>
    match specMerge rest with
    | .bgpG us :: tail => .bgpG (ts ++ us) :: tail
    | l => .bgpG ts :: l
  | g :: rest => g :: specMerge rest

/-- Full-text-search magic predicate, search keywords. -/
def sesSearch : String := "ses:search"

/-- Full-text-search magic predicate, match-all-terms flag. -/
def sesMatchAllTerms : String := "ses:matchAllTerms"

/-- Full-text-search magic predicate, minimum relevance score. -/
def sesMinRelevance : String := "ses:minRelevance"

/-- Full-text-search magic predicate, maximum relevance score. -/
def sesMaxRelevance : String := "ses:maxRelevance"

/-- Full-text-search magic predicate, minimum rank. -/
def sesMinRank : String := "ses:minRank"

/-- Full-text-search magic predicate, maximum rank. -/
def sesMaxRank : String := "ses:maxRank"

/-- Full-text-search magic predicate, relevance score variable. -/
def sesRelevance : String := "ses:relevance"

/-- Full-text-search magic predicate, rank variable. -/
def sesRank : String := "ses:rank"

/-- Decimal digit test and value are those of the host language. -/
def digitsToNat (l : List Char) : Nat :=
  l.foldl (fun a c => a * 10 + (c.toNat - 48)) 0

/-- Minus sign character. -/
def minusChar : Char := Char.ofNat 45

/-- Plus sign character. -/
def plusChar : Char := Char.ofNat 43

/-- Decimal point character. -/
def dotChar : Char := Char.ofNat 46

/-- Simplified model of the host-language Number conversion applied to
literal lexical forms: an empty string converts to 0; otherwise an optional
sign followed by decimal digits with an optional fractional part; anything
else is NaN, rendered as none. -/
def jsNumber (s : String) : Option Rat :=
  let cs := s.data
  if cs.isEmpty then some 0
  else
    let signBody : Bool × List Char :=
      match cs with
      | c :: t =>
        if c = minusChar then (true, t)
        else if c = plusChar then (false, t)
        else (false, cs)
      | [] => (false, cs)
    let body := signBody.2
    let parts := body.splitOn dotChar
    let mag : Option Rat :=
      match parts with
      | [ip] =>
        if ip.isEmpty then none
        else if ip.all Char.isDigit then some ((digitsToNat ip : Rat))
        else none
      | [ip, fp] =>
        if ip.isEmpty && fp.isEmpty then none
        else if ip.all Char.isDigit && fp.all Char.isDigit then
          some ((digitsToNat ip : Rat) + (digitsToNat fp : Rat) / ((10 : Rat) ^ fp.length))
        else none
      | _ => none
    mag.map (fun q => if signBody.1 then -q else q)

/-- An integer in the sense of the host isInteger test: a rational in lowest
terms with denominator one. -/
def ratIsInteger (q : Rat) : Bool := q.den == 1

/-- Parameters accumulated by _buildFullTextSearchIterator
(bgp-stage-builder.ts 879) while scanning the magic triples. -/
structure FTSParams where
  keywords : List String
  matchAll : Bool
  minScore : Option Rat
  maxScore : Option Rat
  minRank : Option Rat
  maxRank : Option Rat
  addScore : Bool
  addRank : Bool
  scoreVariable : Option String
  rankVariable : Option String
deriving DecidableEq

/-- Initial full-text-search parameters (bgp-stage-builder.ts 888). -/
def initFTS : FTSParams :=
  ⟨[], false, none, none, none, none, false, false, none, none⟩

/-- SyntaxError kinds raised while validating full-text-search magic
triples. -/
inductive FtsErr where
  | badSubject
  | notLiteral
  | notNumber
  | notPositiveInteger
  | notVariable
  | scoreOrder
  | rankOrder
deriving DecidableEq

/-- Space character. -/
def spaceChar : String := " "

/-- One case of the switch of _buildFullTextSearchIterator
(bgp-stage-builder.ts 907): from the magic triple's predicate and object,
either the SyntaxError the case raises or the update it applies to the
accumulated parameters. Each known predicate validates its object: a literal
for search and the numeric bounds, a parsed number for the relevance bounds,
a non-negative integer for the rank bounds, a variable for relevance and
rank; asking for the rank defaults the minimum rank to 0; unknown predicates
are ignored. -/
def ftsCheck (t : Triple) : Except FtsErr (FTSParams → FTSParams) :=
  if t.predicate.value == sesSearch then
    match t.object with
    | .lit v _ _ => .ok (fun st => { st with keywords := v.splitOn spaceChar })
    | _ => .error .notLiteral
  else if t.predicate.value == sesMatchAllTerms then
    .ok (fun st => { st with
      matchAll := t.object.value.toLower == sTrue || t.object.value.toLower == sOne })
  else if t.predicate.value == sesMinRelevance then
    match t.object with
    | .lit v _ _ =>
      match jsNumber v with
      | some q => .ok (fun st => { st with minScore := some q })
      | none => .error .notNumber
    | _ => .error .notLiteral
  else if t.predicate.value == sesMaxRelevance then
    match t.object with
    | .lit v _ _ =>
      match jsNumber v with
      | some q => .ok (fun st => { st with maxScore := some q })
      | none => .error .notNumber
    | _ => .error .notLiteral
  else if t.predicate.value == sesMinRank then
    match t.object with
    | .lit v _ _ =>
      match jsNumber v with
      | some q =>
        if ratIsInteger q && !(q < 0) then .ok (fun st => { st with minRank := some q })
        else .error .notPositiveInteger
      | none => .error .notPositiveInteger
    | _ => .error .notLiteral
  else if t.predicate.value == sesMaxRank then
    match t.object with
    | .lit v _ _ =>
      match jsNumber v with
      | some q =>
        if ratIsInteger q && !(q < 0) then .ok (fun st => { st with maxRank := some q })
        else .error .notPositiveInteger
      | none => .error .notPositiveInteger
    | _ => .error .notLiteral
  else if t.predicate.value == sesRelevance then
    match t.object with
    | .tvar n => .ok (fun st => { st with addScore := true, scoreVariable := some n })
    | _ => .error .notVariable
  else if t.predicate.value == sesRank then
    match t.object with
    | .tvar n =>
      .ok (fun st => { st with addRank := true, rankVariable := some n, minRank := some (st.minRank.getD 0) })
    | _ => .error .notVariable
  else .ok (fun st => st)

/-- One step of the magic-triple scan of _buildFullTextSearchIterator
(bgp-stage-builder.ts 900): the subject must be the query variable, then the
predicate switch validates the object and updates the parameters. -/
def ftsStep (queryVariable : Term) (st : FTSParams) (t : Triple) :
    Except FtsErr FTSParams :=
  if t.subject ≠ queryVariable then .error .badSubject
  else (ftsCheck t).map (fun upd => upd st)

/-- Fold of the magic-triple scan, stopping at the first SyntaxError. -/
def ftsFold (queryVariable : Term) : List Triple → FTSParams → Except FtsErr FTSParams
  | [], st => .ok st
  | t :: ts, st =>
    match ftsStep queryVariable st t with
    | .error e => .error e
    | .ok st2 => ftsFold queryVariable ts st2

/-- The two final ordering assertions of _buildFullTextSearchIterator
(bgp-stage-builder.ts 1026): the minimum relevance score must not exceed the
maximum one, and the minimum rank must not exceed the maximum one. -/
def ftsOrderingOk (st : FTSParams) : Bool :=
  (match st.minScore, st.maxScore with
    | some a, some b => !(b < a)
    | _, _ => true) &&
  (match st.minRank, st.maxRank with
    | some a, some b => !(b < a)
    | _, _ => true)

/-- _buildFullTextSearchIterator parameter validation (bgp-stage-builder.ts
879): scan the magic triples, then assert the two orderings; on success the
stage is built with the accumulated parameters. -/
def buildFullTextSearch (queryVariable : Term) (magicTriples : List Triple) :
    Except FtsErr FTSParams :=
  match ftsFold queryVariable magicTriples initFTS with
  | .error e => .error e
  | .ok st =>
    match st.minScore, st.maxScore with
    | some a, some b =>
      if b < a then .error .scoreOrder
      else
        match st.minRank, st.maxRank with
        | some c, some d => if d < c then .error .rankOrder else .ok st
        | _, _ => .ok st
    | _, _ =>
      match st.minRank, st.maxRank with
      | some c, some d => if d < c then .error .rankOrder else .ok st
      | _, _ => .ok st

/-- Twenty minutes expressed in milliseconds. -/
def twentyMinutesMs : Nat := 20 * 60 * 1000

/-- Twenty minutes expressed in seconds. -/
def twentyMinutesS : Nat := 20 * 60

/-- C5: calling useCache with no argument is documented (useCache doc comment
and spec section 4.5) to install an LRU cache with 500 entries and a max age
of 20 minutes, but the constructor is passed 1200 * 60 * 60 = 4320000 as the
age argument, which is 72 minutes when read as milliseconds and equals 20
minutes under no time unit. -/
theorem useCache_default_age_not_twenty_minutes :
    useCache none = ⟨500, 4320000⟩ ∧
      (4320000 : Nat) ≠ twentyMinutesMs ∧ (4320000 : Nat) ≠ twentyMinutesS := by
  refine ⟨rfl, by decide, by decide⟩

/-- Discriminator of the bound-join branch of a plan. -/
def JoinPlan.isBoundJoin : JoinPlan → Bool
  | .boundJoinPlan _ _ => true
  | .indexLoopPlan _ => false

/-- C6: the BGP stage picks the bound-join strategy exactly when the graph
capability bitset has the UNION bit and the context does not carry
FORCE_INDEX_JOIN; in every other case it builds the index-nested-loop
bgpEvaluation, which for each input mapping substitutes the patterns and
delegates to Graph.evalBGP, or to the cache when caching is enabled. -/
theorem buildIterator_strategy (source : List Bindings) (g : Graph)
    (patterns : List Triple) (context : ExecutionContext) :
    ((buildIterator source g patterns context).isBoundJoin = true ↔
      (g.isCapable .unionCap = true ∧ context.forceIndexJoin = false)) ∧
    (¬(g.isCapable .unionCap = true ∧ context.forceIndexJoin = false) →
      buildIterator source g patterns context =
        .indexLoopPlan (bgpEvaluation source patterns g context)) ∧
    (bgpEvaluation source patterns g context).1 =
      (source.map (fun mu =>
        (if context.cachingEnabled then cacheEvalBGP (patterns.map mu.bound) g
          else (g.evalBGP (patterns.map mu.bound), [])).1.map
            (fun item => item.union mu))).flatten := by
  refine ⟨?_, ?_, ?_⟩
  · unfold buildIterator
    by_cases hc : (g.isCapable .unionCap && !context.forceIndexJoin) = true
    · rw [if_pos hc]
      rcases Bool.and_eq_true_iff.mp hc with ⟨h1, h2⟩
      exact ⟨fun _ => ⟨h1, by simpa using h2⟩, fun _ => rfl⟩
    · rw [if_neg hc]
      exact ⟨fun hfalse => absurd hfalse Bool.noConfusion,
        fun hp => absurd (by rw [hp.1, hp.2]; rfl) hc⟩
  · intro hn
    unfold buildIterator
    rw [if_neg (fun hc => hn (by
      rcases Bool.and_eq_true_iff.mp hc with ⟨h1, h2⟩
      exact ⟨h1, by simpa using h2⟩))]
  · unfold bgpEvaluation
    dsimp only
    rw [List.map_map]
    rfl

/-- Graph with no triples, no bulk evaluator results and no capabilities. -/
def noCapGraph : Graph := ⟨[], fun _ => [], []⟩

/-- C6 witness: on a graph with no capabilities the stage builds the
index-nested-loop plan. -/
theorem buildIterator_strategy_witness :
    buildIterator [] noCapGraph [] ⟨false, false, false⟩ =
      .indexLoopPlan (bgpEvaluation [] [] noCapGraph ⟨false, false, false⟩) :=
  (buildIterator_strategy [] noCapGraph [] ⟨false, false, false⟩).2.1
    (fun h => by simpa [Graph.isCapable, noCapGraph] using h.1)

/-- C3: the plan builder records the HAS_LIMIT_OFFSET flag, equal to the
presence of a LIMIT or an OFFSET modifier, on the execution context under
which the WHERE clause is then built; cloning for a child context preserves
the flag; and under the flag the BGP evaluation path performs no cache read
and no cache write for the query BGPs. -/
theorem hasLimitOffset_recorded_before_where_and_disables_cache :
    (∀ (q : QueryNode) (ctx : ExecutionContext),
      (whereContext q ctx).hasLimitOffset = (q.limit.isSome || q.offset.isSome)) ∧
    (∀ ctx : ExecutionContext, ctx.clone.hasLimitOffset = ctx.hasLimitOffset) ∧
    (∀ (source : List Bindings) (bgp : List Triple) (g : Graph)
        (ctx : ExecutionContext), ctx.hasLimitOffset = true →
      (bgpEvaluation source bgp g ctx).2 = []) := by
  refine ⟨fun q ctx => rfl, fun ctx => rfl, ?_⟩
  intro source bgp g ctx h
  unfold bgpEvaluation
  dsimp only
  simp [ExecutionContext.cachingEnabled, h, List.map_map]

/-- C3 witness: a context carrying the flag makes the BGP evaluation path
produce no cache event. -/
theorem hasLimitOffset_disables_cache_witness :
    (bgpEvaluation [Bindings.empty] [] noCapGraph ⟨true, true, false⟩).2 = [] :=
  hasLimitOffset_recorded_before_where_and_disables_cache.2.2
    [Bindings.empty] [] noCapGraph ⟨true, true, false⟩ rfl

/-- Name of an example variable x. -/
def sX : String := "x"

/-- Name of an example variable o. -/
def sO : String := "o"

/-- Example IRI a. -/
def sA : String := "a"

/-- Example IRI b. -/
def sB : String := "b"

/-- Example IRI p. -/
def sP : String := "p"

/-- Example IRI term a. -/
def termA : Term := .iri sA

/-- Example IRI term b. -/
def termB : Term := .iri sB

/-- Example IRI term p. -/
def termP : Term := .iri sP

theorem hasKey_iff_mem_keys (b : Bindings) (k : String) :
    b.hasKey k = true ↔ k ∈ b.keys := by
  unfold Bindings.hasKey Bindings.keys
  rw [List.any_eq_true]
  constructor
  · rintro ⟨p, hp, hpk⟩
    have hk : p.1 = k := by simpa using hpk
    rw [← hk]
    exact List.mem_map_of_mem Prod.fst hp
  · intro hk
    rcases List.mem_map.mp hk with ⟨p, hp, hpk⟩
    exact ⟨p, hp, by simp [hpk]⟩

/-- C9: Bindings.equals returns true exactly when the two sets of mappings
have the same domain of variables and associate equal terms to every
variable of that domain, under the JS Map invariant that keys are not
duplicated. -/
theorem equals_iff_same_domain_pointwise (b1 b2 : Bindings)
    (h1 : b1.keys.Nodup) (h2 : b2.keys.Nodup) :
    b1.equals b2 = true ↔
      ((∀ k, b1.hasKey k = true ↔ b2.hasKey k = true) ∧
        (∀ k, b1.hasKey k = true → b1.get k = b2.get k)) := by
  unfold Bindings.equals
  constructor
  · intro heq
    by_cases hsz : (b1.size != b2.size) = true
    · rw [if_pos hsz] at heq
      exact absurd heq Bool.noConfusion
    · rw [if_neg hsz] at heq
      have hsz2 : b1.size = b2.size := not_not.mp (fun hne => hsz (bne_iff_ne.mpr hne))
      have hall := List.all_eq_true.mp heq
      have hsub : ∀ k, b2.hasKey k = true → b1.hasKey k = true := by
        intro k hk
        have hkmem := (hasKey_iff_mem_keys b2 k).mp hk
        exact (Bool.and_eq_true_iff.mp (hall k hkmem)).1
      have hfsub : b2.keys.toFinset ⊆ b1.keys.toFinset := by
        intro k hkm
        rw [List.mem_toFinset] at hkm
        exact List.mem_toFinset.mpr
          ((hasKey_iff_mem_keys b1 k).mp (hsub k ((hasKey_iff_mem_keys b2 k).mpr hkm)))
      have hlen : b1.keys.length = b2.keys.length := by
        unfold Bindings.keys
        rw [List.length_map, List.length_map]
        exact hsz2
      have hcard : b1.keys.toFinset.card ≤ b2.keys.toFinset.card := by
        rw [List.toFinset_card_of_nodup h1, List.toFinset_card_of_nodup h2]
        exact le_of_eq hlen
      have hfeq : b2.keys.toFinset = b1.keys.toFinset :=
        Finset.eq_of_subset_of_card_le hfsub hcard
      have hdom : ∀ k, b1.hasKey k = true ↔ b2.hasKey k = true := by
        intro k
        rw [hasKey_iff_mem_keys, hasKey_iff_mem_keys, ← List.mem_toFinset, ← List.mem_toFinset,
          hfeq]
      refine ⟨hdom, ?_⟩
      intro k hk1
      have hm2 : k ∈ b2.keys := (hasKey_iff_mem_keys b2 k).mp ((hdom k).mp hk1)
      have hbeq := (Bool.and_eq_true_iff.mp (hall k hm2)).2
      exact beq_iff_eq.mp hbeq
  · rintro ⟨hdom, hpt⟩
    have hf : b1.keys.toFinset = b2.keys.toFinset := by
      ext k
      rw [List.mem_toFinset, List.mem_toFinset, ← hasKey_iff_mem_keys, ← hasKey_iff_mem_keys]
      exact hdom k
    have hlen : b1.keys.length = b2.keys.length := by
      rw [← List.toFinset_card_of_nodup h1, ← List.toFinset_card_of_nodup h2, hf]
    have hsz2 : b1.size = b2.size := by
      unfold Bindings.size
      unfold Bindings.keys at hlen
      rw [List.length_map, List.length_map] at hlen
      exact hlen
    rw [if_neg (by simp [hsz2])]
    apply List.all_eq_true.mpr
    intro k hkm
    have hk2 : b2.hasKey k = true := (hasKey_iff_mem_keys b2 k).mpr hkm
    have hk1 : b1.hasKey k = true := (hdom k).mpr hk2
    rw [Bool.and_eq_true_iff]
    exact ⟨hk1, beq_iff_eq.mpr (hpt k hk1)⟩

/-- C9 witness: a singleton mapping is equal to itself, through the
characterization. -/
theorem equals_iff_same_domain_pointwise_witness :
    Bindings.equals ⟨[(sX, termA)], none⟩ ⟨[(sX, termA)], none⟩ = true :=
  (equals_iff_same_domain_pointwise ⟨[(sX, termA)], none⟩ ⟨[(sX, termA)], none⟩
    (by simp [Bindings.keys]) (by simp [Bindings.keys])).mpr
    ⟨fun k => Iff.rfl, fun k _ => rfl⟩

theorem bindOperator_nil (targetVariable : String) (expression : Expr) :
    bindOperator [] targetVariable expression = [] := rfl

theorem bindOperator_cons (mu : Bindings) (rest : List Bindings)
    (targetVariable : String) (expression : Expr) :
    bindOperator (mu :: rest) targetVariable expression =
      (match evalExpr expression mu with
        | .thrown => []
        | .nullRes => [mu.set targetVariable .unbound]
        | .term t => [mu.set targetVariable t]
        | .list ts =>
          ts.map (fun elem =>
            match elem with
            | none => mu.set targetVariable .unbound
            | some t => mu.set targetVariable t)) ++
        bindOperator rest targetVariable expression := by
  unfold bindOperator
  rw [List.flatMap_cons]

/-- Aggregate table entry that returns the null signal; its behavior is
irrelevant to the counterexample, which never reaches it. -/
def aggNull : List (String × List Term) → EvalResult := fun _ => .nullRes

/-- An aggregate expression, evaluated outside of any aggregation query. -/
def exprAggOutside : Expr := .aggregate aggNull

/-- C1 counterexample: evaluating an aggregate expression on a mapping whose
property bag carries no __aggregate entry throws inside the evaluator
(sparql-expression.ts 374); bind silences the throw (bind.ts 174) and emits
no mapping, so one input mapping produces zero output mappings instead of
the one mapping the claim requires. -/
theorem bind_thrown_evaluation_drops_input :
    bindOperator [Bindings.empty] sX exprAggOutside = [] ∧
      ([Bindings.empty] : List Bindings).length = 1 := ⟨rfl, rfl⟩

/-- C1 amended: when evaluating the expression neither throws at the
evaluator's top level nor yields a term list, BIND emits exactly one mapping
per input mapping, namely the input with the target variable bound to the
evaluated term, or to the Unbound sentinel when the evaluator signals an
error by returning null (as it does when a custom function throws); the
input count is preserved. When evaluation throws at the top level the input
is dropped, and a term list yields one mapping per element. -/
theorem bind_one_mapping_per_input (source : List Bindings)
    (targetVariable : String) (expression : Expr)
    (h : ∀ mu ∈ source, evalExpr expression mu ≠ .thrown ∧
      ∀ ts, evalExpr expression mu ≠ .list ts) :
    bindOperator source targetVariable expression =
      source.map (fun mu =>
        match evalExpr expression mu with
        | .term t => mu.set targetVariable t
        | _ => mu.set targetVariable .unbound) ∧
    (bindOperator source targetVariable expression).length = source.length := by
  have hmap : bindOperator source targetVariable expression =
      source.map (fun mu =>
        match evalExpr expression mu with
        | .term t => mu.set targetVariable t
        | _ => mu.set targetVariable .unbound) := by
    induction source with
    | nil => rfl
    | cons mu rest ih =>
      have hh := h mu (List.mem_cons_self mu rest)
      rw [bindOperator_cons, List.map_cons,
        ih (fun m hm => h m (List.mem_cons_of_mem mu hm))]
      cases hm : evalExpr expression mu with
      | term t => rfl
      | nullRes => rfl
      | thrown => exact absurd hm hh.1
      | list ts => exact absurd hm (hh.2 ts)
  exact ⟨hmap, by rw [hmap, List.length_map]⟩

/-- C1 amended witness: a constant expression binds its term on the single
input mapping. -/
theorem bind_one_mapping_per_input_witness :
    bindOperator [Bindings.empty] sX (Expr.constant termA) =
      [Bindings.empty.set sX termA] ∧
      (bindOperator [Bindings.empty] sX (Expr.constant termA)).length = 1 := by
  have h := bind_one_mapping_per_input [Bindings.empty] sX (Expr.constant termA)
    (by
      intro mu _
      refine ⟨fun hc => ?_, fun ts hc => ?_⟩
      · exact EvalResult.noConfusion hc
      · exact EvalResult.noConfusion hc)
  exact ⟨by rw [h.1]; rfl, h.2⟩

theorem evalExpr_functionCall_null (f : List EvalResult → EvalResult)
    (args : List Expr) (mu : Bindings)
    (h : ∀ vs, evalArgsE args mu = some vs → f vs = .thrown) :
    evalExpr (.functionCall f args) mu = .nullRes := by
  rw [evalExpr]
  cases hargs : evalArgsE args mu with
  | none => rfl
  | some vs =>
    dsimp only
    rw [h vs hargs]

/-- C4: a user custom function that throws during evaluation is caught by the
compiled expression, which returns the null error signal; inside BIND every
affected input mapping still yields exactly one mapping with the target
variable bound to the Unbound sentinel, inside FILTER the affected input
yields zero mappings, and both stages process input mappings independently,
so the remaining inputs continue to produce their results. -/
theorem custom_function_throw_bind_filter (f : List EvalResult → EvalResult)
    (args : List Expr) (source : List Bindings) (targetVariable : String)
    (h : ∀ mu ∈ source, ∀ vs, evalArgsE args mu = some vs → f vs = .thrown) :
    bindOperator source targetVariable (.functionCall f args) =
      source.map (fun mu => mu.set targetVariable .unbound) ∧
    filterOperator source (.functionCall f args) = [] ∧
    (∀ (xs ys : List Bindings) (v : String) (e : Expr),
      bindOperator (xs ++ ys) v e = bindOperator xs v e ++ bindOperator ys v e) ∧
    (∀ (xs ys : List Bindings) (e : Expr),
      filterOperator (xs ++ ys) e = filterOperator xs e ++ filterOperator ys e) := by
  refine ⟨?_, ?_, ?_, ?_⟩
  · induction source with
    | nil => rfl
    | cons mu rest ih =>
      rw [bindOperator_cons, List.map_cons,
        ih (fun m hm => h m (List.mem_cons_of_mem mu hm)),
        evalExpr_functionCall_null f args mu (h mu (List.mem_cons_self mu rest))]
      rfl
  · apply List.filter_eq_nil_iff.mpr
    intro mu hmu
    rw [evalExpr_functionCall_null f args mu (h mu hmu)]
    exact Bool.noConfusion
  · intro xs ys v e
    unfold bindOperator
    rw [List.flatMap_append]
  · intro xs ys e
    unfold filterOperator
    exact List.filter_append _ _

/-- A custom function that always throws. -/
def alwaysThrow : List EvalResult → EvalResult := fun _ => .thrown

/-- C4 witness: a throwing custom function with no arguments yields one
Unbound mapping under BIND and no mapping under FILTER on a singleton
input. -/
theorem custom_function_throw_bind_filter_witness :
    bindOperator [Bindings.empty] sX (.functionCall alwaysThrow []) =
      [Bindings.empty.set sX .unbound] ∧
    filterOperator [Bindings.empty] (.functionCall alwaysThrow []) = [] := by
  have h := custom_function_throw_bind_filter alwaysThrow [] [Bindings.empty] sX
    (fun mu _ vs _ => rfl)
  exact ⟨by rw [h.1]; rfl, h.2.1⟩

/-- A mapping extends another when every variable bound by the latter is
bound to the same term. -/
def isExtensionOf (mu muP : Bindings) : Prop :=
  ∀ k v, mu.get k = some v → muP.get k = some v

/-- Variable name occurring at one pattern position, if any. -/
def varSeg (t : Term) : List String :=
  match t with
  | .tvar n => [n]
  | _ => []

/-- The variable names of a triple pattern, with multiplicity, in subject,
predicate, object order. -/
def patternVarNames (t : Triple) : List String :=
  varSeg t.subject ++ varSeg t.predicate ++ varSeg t.object

/-- Invariant of solution mappings (spec section 3): values are never
variables. -/
def valuesNonVariable (mu : Bindings) : Prop :=
  ∀ k v, mu.get k = some v → v.isVariable = false

/-- Backend contract for evalBGP (spec sections 4.2 and 6): every mapping it
returns makes every pattern of the evaluated BGP a triple of the graph once
substituted. -/
def evalBGPSound (g : Graph) : Prop :=
  ∀ bgp nu, nu ∈ g.evalBGP bgp → ∀ t ∈ bgp, nu.bound t ∈ g.triples

theorem hasKey_false_of_get_none (b : Bindings) (k : String)
    (h : b.get k = none) : b.hasKey k = false := by
  unfold Bindings.get at h
  unfold Bindings.hasKey
  have hf : b.entries.find? (fun p => p.1 == k) = none := by
    cases hfind : b.entries.find? (fun p => p.1 == k) with
    | none => rfl
    | some p => rw [hfind] at h; simp at h
  have hall := List.find?_eq_none.mp hf
  apply Bool.eq_false_iff.mpr
  intro hc
  rcases List.any_eq_true.mp hc with ⟨p, hp, hpk⟩
  exact hall p hp hpk

theorem union_extends (m mu : Bindings) (hnd : mu.keys.Nodup) (k : String)
    (v : Term) (h : mu.get k = some v) : (m.union mu).get k = some v := by
  rw [union_get_of_right m mu hnd k (get_isSome_of_get_eq mu k v h)]
  exact h

theorem union_isExtensionOf (m mu : Bindings) (hnd : mu.keys.Nodup) :
    isExtensionOf mu (m.union mu) :=
  fun k v h => union_extends m mu hnd k v h

theorem union_boundTerm (item mu : Bindings) (p : Term)
    (hnd : mu.keys.Nodup)
    (hvals : ∀ k v, mu.get k = some v → v.isVariable = false) :
    (item.union mu).boundTerm p = item.boundTerm (mu.boundTerm p) := by
  cases p with
  | tvar n =>
    cases hget : mu.get n with
    | some v =>
      have hL : (item.union mu).get n = some v := union_extends item mu hnd n v hget
      have h1 : (item.union mu).boundTerm (.tvar n) = v := by
        simp [Bindings.boundTerm, hL]
      have h2 : mu.boundTerm (.tvar n) = v := by
        simp [Bindings.boundTerm, hget]
      rw [h1, h2]
      have hv := hvals n v hget
      cases v with
      | tvar m => simp [Term.isVariable] at hv
      | iri s => rfl
      | blank s => rfl
      | lit a c d => rfl
      | unbound => rfl
    | none =>
      have hK : mu.hasKey n = false := hasKey_false_of_get_none mu n hget
      have h2 : mu.boundTerm (.tvar n) = .tvar n := by
        simp [Bindings.boundTerm, hget]
      rw [h2]
      simp [Bindings.boundTerm, union_get_of_left item mu n hK]
  | iri s => rfl
  | blank s => rfl
  | lit a c d => rfl
  | unbound => rfl

theorem union_bound (item mu : Bindings) (t : Triple)
    (hnd : mu.keys.Nodup)
    (hvals : ∀ k v, mu.get k = some v → v.isVariable = false) :
    (item.union mu).bound t = item.bound (mu.bound t) := by
  unfold Bindings.bound
  rw [union_boundTerm item mu t.subject hnd hvals,
    union_boundTerm item mu t.predicate hnd hvals,
    union_boundTerm item mu t.object hnd hvals]

theorem step1_results (c : Bool) (b : List Triple) (g : Graph) :
    (if c then cacheEvalBGP b g else (g.evalBGP b, [])).1 = g.evalBGP b := by
  cases c <;> rfl

theorem tempEntries_keys (bounded item : Triple) :
    (tempEntries bounded item).map Prod.fst = patternVarNames bounded := by
  obtain ⟨bs, bp, bo⟩ := bounded
  unfold tempEntries patternVarNames
  cases bs <;> cases bp <;> cases bo <;> rfl

theorem foldl_setEntry_fresh (l : Entries) : ∀ acc : Entries,
    (l.map Prod.fst).Nodup →
    (∀ p ∈ l, acc.any (fun q => q.1 == p.1) = false) →
    l.foldl (fun a p => setEntry a p.1 p.2) acc = acc ++ l := by
  induction l with
  | nil =>
    intro acc _ _
    simp
  | cons p t ih =>
    intro acc hnd hfresh
    rw [List.map_cons] at hnd
    have hnotin : Prod.fst p ∉ t.map Prod.fst := (List.nodup_cons.mp hnd).1
    rw [List.foldl_cons]
    show List.foldl (fun a q => setEntry a q.1 q.2) (setEntry acc p.1 p.2) t =
      acc ++ p :: t
    rw [setEntry_eq_append acc p.1 p.2 (hfresh p (List.mem_cons_self p t))]
    have hfresh2 : ∀ q ∈ t,
        (acc ++ [(p.1, p.2)]).any (fun r => r.1 == q.1) = false := by
      intro q hq
      rw [List.any_append, hfresh q (List.mem_cons_of_mem p hq)]
      have hne : (p.1 == q.1) = false := by
        apply beq_eq_false_iff_ne.mpr
        intro hc
        exact hnotin (by rw [hc]; exact List.mem_map_of_mem Prod.fst hq)
      simp [hne]
    rw [ih (acc ++ [(p.1, p.2)]) (List.nodup_cons.mp hnd).2 hfresh2,
      List.append_assoc]
    rfl

theorem collapseKeys_of_nodup (l : Entries) (hnd : (l.map Prod.fst).Nodup) :
    collapseKeys l = l := by
  unfold collapseKeys
  rw [foldl_setEntry_fresh l [] hnd (fun p _ => rfl)]
  rfl

theorem find?_append_left {α : Type} (p : α → Bool) (l1 l2 : List α)
    (h : l1.find? p = none) : (l1 ++ l2).find? p = l2.find? p := by
  induction l1 with
  | nil => rfl
  | cons a t ih =>
    have hpa : p a = false := by
      by_contra hc
      rw [List.find?_cons_of_pos _ (by simpa using hc)] at h
      exact Option.noConfusion h
    rw [List.find?_cons_of_neg _ (by simp [hpa])] at h
    rw [List.cons_append, List.find?_cons_of_neg _ (by simp [hpa])]
    exact ih h

theorem varSeg_find_none (t : Term) (itemPos : Term) (n : String)
    (h : ∀ m, t = .tvar m → m ≠ n) :
    (posEntry t itemPos).find? (fun p => p.1 == n) = none := by
  cases t with
  | tvar m =>
    have hne := h m rfl
    simp [posEntry, List.find?, beq_eq_false_iff_ne.mpr hne]
  | iri s => rfl
  | blank s => rfl
  | lit a c d => rfl
  | unbound => rfl

theorem tempEntries_find_subject (bounded item : Triple) (n : String)
    (hs : bounded.subject = .tvar n) :
    (tempEntries bounded item).find? (fun p => p.1 == n) = some (n, item.subject) := by
  unfold tempEntries
  rw [hs]
  show ((posEntry (.tvar n) item.subject ++ _) ++ _).find? _ = _
  rw [List.append_assoc]
  exact List.find?_cons_of_pos _ (by simp)

theorem nodup_varSeg_ne (a b : List String) (rest : List String)
    (hnd : (a ++ b ++ rest).Nodup) (m n : String)
    (hma : m ∈ a) (hnb : n ∈ b) : m ≠ n := by
  intro hc
  subst hc
  rcases List.nodup_append.mp hnd with ⟨hnda, hndrest, hdisj⟩
  rcases List.nodup_append.mp hnda with ⟨_, _, hdisj2⟩
  exact hdisj2 hma hnb

theorem find?_append_some {α : Type} (p : α → Bool) (l1 l2 : List α) (a : α)
    (h : l1.find? p = some a) : (l1 ++ l2).find? p = some a := by
  induction l1 with
  | nil => exact absurd h (by simp)
  | cons x t ih =>
    by_cases hx : p x = true
    · rw [List.find?_cons_of_pos _ hx] at h
      rw [List.cons_append, List.find?_cons_of_pos _ hx]
      exact h
    · have hx2 : p x = false := Bool.eq_false_iff.mpr hx
      rw [List.find?_cons_of_neg _ (by simp [hx2])] at h
      rw [List.cons_append, List.find?_cons_of_neg _ (by simp [hx2])]
      exact ih h

theorem nodup_ne_third (a b c : List String) (hnd : (a ++ b ++ c).Nodup)
    (m n : String) (hm : m ∈ a ++ b) (hn : n ∈ c) : m ≠ n := by
  intro hc
  subst hc
  exact (List.nodup_append.mp hnd).2.2 hm hn

theorem tempEntries_find_predicate (bounded item : Triple) (n : String)
    (hp : bounded.predicate = .tvar n)
    (hnd : (patternVarNames bounded).Nodup) :
    (tempEntries bounded item).find? (fun q => q.1 == n) = some (n, item.predicate) := by
  unfold patternVarNames at hnd
  have hsn : (posEntry bounded.subject item.subject).find? (fun q => q.1 == n) = none := by
    apply varSeg_find_none
    intro m hm
    exact nodup_varSeg_ne (varSeg bounded.subject) (varSeg bounded.predicate)
      (varSeg bounded.object) hnd m n (by rw [hm]; simp [varSeg])
      (by rw [hp]; simp [varSeg])
  have hfp : (posEntry bounded.predicate item.predicate).find? (fun q => q.1 == n) =
      some (n, item.predicate) := by
    rw [hp]
    exact List.find?_cons_of_pos _ (by simp)
  unfold tempEntries
  apply find?_append_some
  rw [find?_append_left _ _ _ hsn]
  exact hfp

theorem tempEntries_find_object (bounded item : Triple) (n : String)
    (ho : bounded.object = .tvar n)
    (hnd : (patternVarNames bounded).Nodup) :
    (tempEntries bounded item).find? (fun q => q.1 == n) = some (n, item.object) := by
  unfold patternVarNames at hnd
  have hsn : (posEntry bounded.subject item.subject).find? (fun q => q.1 == n) = none := by
    apply varSeg_find_none
    intro m hm
    exact nodup_ne_third (varSeg bounded.subject) (varSeg bounded.predicate)
      (varSeg bounded.object) hnd m n
      (List.mem_append.mpr (Or.inl (by rw [hm]; simp [varSeg])))
      (by rw [ho]; simp [varSeg])
  have hpn : (posEntry bounded.predicate item.predicate).find? (fun q => q.1 == n) = none := by
    apply varSeg_find_none
    intro m hm
    exact nodup_ne_third (varSeg bounded.subject) (varSeg bounded.predicate)
      (varSeg bounded.object) hnd m n
      (List.mem_append.mpr (Or.inr (by rw [hm]; simp [varSeg])))
      (by rw [ho]; simp [varSeg])
  have hfo : (posEntry bounded.object item.object).find? (fun q => q.1 == n) =
      some (n, item.object) := by
    rw [ho]
    exact List.find?_cons_of_pos _ (by simp)
  unfold tempEntries
  rw [find?_append_left _ _ _ (by rw [find?_append_left _ _ _ hsn]; exact hpn)]
  exact hfo

theorem subst_position_eq (mu m : Bindings) (p ipos : Term)
    (hnd : mu.keys.Nodup)
    (hvals : ∀ k v, mu.get k = some v → v.isVariable = false)
    (hmatch : positionMatches (mu.boundTerm p) ipos = true)
    (hmget : ∀ k, mu.boundTerm p = .tvar k → m.get k = some ipos) :
    (m.union mu).boundTerm p = ipos := by
  cases p with
  | tvar n =>
    cases hget : mu.get n with
    | some v =>
      have hb : mu.boundTerm (.tvar n) = v := by simp [Bindings.boundTerm, hget]
      rw [hb] at hmatch
      have hv := hvals n v hget
      have hveq : v = ipos := by
        unfold positionMatches at hmatch
        rw [hv] at hmatch
        simpa using hmatch
      have hL : (m.union mu).get n = some v := union_extends m mu hnd n v hget
      simp [Bindings.boundTerm, hL, hveq]
    | none =>
      have hb : mu.boundTerm (.tvar n) = .tvar n := by simp [Bindings.boundTerm, hget]
      have hm := hmget n hb
      have hK : mu.hasKey n = false := hasKey_false_of_get_none mu n hget
      have hL : (m.union mu).get n = m.get n := union_get_of_left m mu n hK
      simp [Bindings.boundTerm, hL, hm]
  | iri s =>
    unfold positionMatches at hmatch
    simp [Bindings.boundTerm, Term.isVariable] at hmatch ⊢
    exact hmatch
  | blank s =>
    unfold positionMatches at hmatch
    simp [Bindings.boundTerm, Term.isVariable] at hmatch ⊢
    exact hmatch
  | lit a c d =>
    unfold positionMatches at hmatch
    simp [Bindings.boundTerm, Term.isVariable] at hmatch ⊢
    exact hmatch
  | unbound =>
    unfold positionMatches at hmatch
    simp [Bindings.boundTerm, Term.isVariable] at hmatch ⊢
    exact hmatch

theorem varSeg_bound_sublist (mu : Bindings) (p : Term)
    (hvals : valuesNonVariable mu) :
    (varSeg (mu.boundTerm p)).Sublist (varSeg p) := by
  cases p with
  | tvar n =>
    cases hget : mu.get n with
    | some v =>
      have hb : mu.boundTerm (.tvar n) = v := by simp [Bindings.boundTerm, hget]
      rw [hb]
      have hv := hvals n v hget
      cases v with
      | tvar m => simp [Term.isVariable] at hv
      | iri s => exact List.nil_sublist _
      | blank s => exact List.nil_sublist _
      | lit a c d => exact List.nil_sublist _
      | unbound => exact List.nil_sublist _
    | none =>
      have hb : mu.boundTerm (.tvar n) = .tvar n := by simp [Bindings.boundTerm, hget]
      rw [hb]
  | iri s => exact List.Sublist.refl _
  | blank s => exact List.Sublist.refl _
  | lit a c d => exact List.Sublist.refl _
  | unbound => exact List.Sublist.refl _

theorem bound_patternVarNames_sublist (mu : Bindings) (pattern : Triple)
    (hvals : valuesNonVariable mu) :
    (patternVarNames (mu.bound pattern)).Sublist (patternVarNames pattern) := by
  unfold patternVarNames
  exact List.Sublist.append
    (List.Sublist.append (varSeg_bound_sublist mu pattern.subject hvals)
      (varSeg_bound_sublist mu pattern.predicate hvals))
    (varSeg_bound_sublist mu pattern.object hvals)

theorem indexJoin_mem_destruct (source : List Bindings) (pattern : Triple)
    (g : Graph) (muP : Bindings)
    (h : Except.ok muP ∈ indexJoin source pattern g) :
    ∃ mu ∈ source, ∃ item, item ∈ g.triples ∧
      tripleMatches (mu.bound pattern) item = true ∧
      ∃ m, fromMappingE (collapseKeys (tempEntries (mu.bound pattern) item)) = .ok m ∧
        muP = m.union mu := by
  unfold indexJoin at h
  rcases List.mem_flatMap.mp h with ⟨mu, hmu, hin⟩
  dsimp only at hin
  rcases List.mem_map.mp hin with ⟨item, hitem, heq⟩
  have hfil := List.mem_filter.mp hitem
  refine ⟨mu, hmu, item, hfil.1, hfil.2, ?_⟩
  cases hfm : fromMappingE (collapseKeys (tempEntries (mu.bound pattern) item)) with
  | error e =>
    rw [hfm] at heq
    exact absurd heq (by simp [Except.map])
  | ok m =>
    rw [hfm] at heq
    simp only [Except.map] at heq
    exact ⟨m, rfl, (by
      have := heq
      injection this with h2
      exact h2.symm)⟩

/-- C2 amended: every mapping output by indexJoin and by bgpEvaluation is an
extension of its input mapping; moreover the triple patterns become triples
of the graph under the output mapping, provided no variable occurs twice in
an indexJoin pattern, and provided, for bgpEvaluation, the backend evalBGP
satisfies its contract. Without the no-repeated-variable condition only the
extension half holds. -/
theorem indexJoin_bgpEvaluation_extension_and_matching :
    (∀ (source : List Bindings) (pattern : Triple) (g : Graph) (muP : Bindings),
      (∀ mu ∈ source, mu.keys.Nodup) →
      Except.ok muP ∈ indexJoin source pattern g →
      ∃ mu ∈ source, isExtensionOf mu muP) ∧
    (∀ (source : List Bindings) (pattern : Triple) (g : Graph) (muP : Bindings),
      (∀ mu ∈ source, mu.keys.Nodup ∧ valuesNonVariable mu) →
      (patternVarNames pattern).Nodup →
      Except.ok muP ∈ indexJoin source pattern g →
      ∃ mu ∈ source, isExtensionOf mu muP ∧ muP.bound pattern ∈ g.triples) ∧
    (∀ (source : List Bindings) (bgp : List Triple) (g : Graph)
        (ctx : ExecutionContext) (muP : Bindings),
      (∀ mu ∈ source, mu.keys.Nodup ∧ valuesNonVariable mu) →
      evalBGPSound g →
      muP ∈ (bgpEvaluation source bgp g ctx).1 →
      ∃ mu ∈ source, isExtensionOf mu muP ∧ ∀ t ∈ bgp, muP.bound t ∈ g.triples) := by
  refine ⟨?_, ?_, ?_⟩
  · intro source pattern g muP hnd h
    rcases indexJoin_mem_destruct source pattern g muP h with
      ⟨mu, hmu, item, _, _, m, _, hmuP⟩
    exact ⟨mu, hmu, hmuP ▸ union_isExtensionOf m mu (hnd mu hmu)⟩
  · intro source pattern g muP hsrc hndpat h
    rcases indexJoin_mem_destruct source pattern g muP h with
      ⟨mu, hmu, item, hitemT, hmatch, m, hfm, hmuP⟩
    obtain ⟨hndmu, hvals⟩ := hsrc mu hmu
    subst hmuP
    refine ⟨mu, hmu, union_isExtensionOf m mu hndmu, ?_⟩
    have hndb : (patternVarNames (mu.bound pattern)).Nodup :=
      List.Nodup.sublist (bound_patternVarNames_sublist mu pattern hvals) hndpat
    have hkeys : ((tempEntries (mu.bound pattern) item).map Prod.fst).Nodup := by
      rw [tempEntries_keys]
      exact hndb
    rw [collapseKeys_of_nodup _ hkeys] at hfm
    have hget := fromMappingE_ok_get _ m hkeys hfm
    simp only [tripleMatches, Bool.and_eq_true] at hmatch
    obtain ⟨⟨hms, hmp⟩, hmo⟩ := hmatch
    have hgetS : ∀ k, mu.boundTerm pattern.subject = .tvar k →
        m.get k = some item.subject := by
      intro k hk
      rw [hget k, tempEntries_find_subject (mu.bound pattern) item k hk]
      rfl
    have hgetP : ∀ k, mu.boundTerm pattern.predicate = .tvar k →
        m.get k = some item.predicate := by
      intro k hk
      rw [hget k, tempEntries_find_predicate (mu.bound pattern) item k hk hndb]
      rfl
    have hgetO : ∀ k, mu.boundTerm pattern.object = .tvar k →
        m.get k = some item.object := by
      intro k hk
      rw [hget k, tempEntries_find_object (mu.bound pattern) item k hk hndb]
      rfl
    have hS : (m.union mu).boundTerm pattern.subject = item.subject :=
      subst_position_eq mu m pattern.subject item.subject hndmu hvals hms hgetS
    have hP : (m.union mu).boundTerm pattern.predicate = item.predicate :=
      subst_position_eq mu m pattern.predicate item.predicate hndmu hvals hmp hgetP
    have hO : (m.union mu).boundTerm pattern.object = item.object :=
      subst_position_eq mu m pattern.object item.object hndmu hvals hmo hgetO
    have hbound : (m.union mu).bound pattern = item := by
      unfold Bindings.bound
      rw [hS, hP, hO]
    rw [hbound]
    exact hitemT
  · intro source bgp g ctx muP hsrc hsound h
    unfold bgpEvaluation at h
    dsimp only at h
    rcases List.mem_flatten.mp h with ⟨l, hl, hml⟩
    rw [List.map_map] at hl
    rcases List.mem_map.mp hl with ⟨mu, hmu, hleq⟩
    subst hleq
    obtain ⟨hndmu, hvals⟩ := hsrc mu hmu
    have hml2 : muP ∈ (g.evalBGP (bgp.map mu.bound)).map (fun item => item.union mu) := by
      simpa [step1_results] using hml
    rcases List.mem_map.mp hml2 with ⟨item, hitem, heq⟩
    subst heq
    refine ⟨mu, hmu, union_isExtensionOf item mu hndmu, ?_⟩
    intro t ht
    have hmem := hsound (bgp.map mu.bound) item hitem (mu.bound t)
      (List.mem_map_of_mem mu.bound ht)
    rw [union_bound item mu t hndmu hvals]
    exact hmem

/-- Graph holding the single triple a p b, with no bulk evaluator and no
capabilities. -/
def gRep : Graph := ⟨[⟨termA, termP, termB⟩], fun _ => [], []⟩

/-- Triple pattern with the same variable at the subject and object
positions. -/
def patRep : Triple := ⟨.tvar sX, termP, .tvar sX⟩

/-- C2 counterexample: on the graph holding only the triple a p b and the
pattern with variable x at both the subject and the object positions,
indexJoin on the empty input mapping outputs exactly the mapping x to b (the
object component overwrites the subject component when the row object is
built), and the pattern substituted under that output, the triple b p b, is
not a triple of the graph, so the triple patterns are not matched under the
output mapping. -/
theorem indexJoin_repeated_variable_breaks_matching :
    indexJoin [Bindings.empty] patRep gRep =
      [Except.ok ⟨[(sX, termB)], none⟩] ∧
    ¬((Bindings.mk [(sX, termB)] none).bound patRep ∈ gRep.triples) := by
  constructor
  · rfl
  · decide

/-- C2 amended witness: with distinct variables at the subject and object
positions the single output of indexJoin extends the empty input and matches
the pattern in the graph. -/
theorem indexJoin_extension_and_matching_witness :
    ∃ mu ∈ [Bindings.empty],
      isExtensionOf mu ⟨[(sX, termA), (sO, termB)], none⟩ ∧
      (Bindings.mk [(sX, termA), (sO, termB)] none).bound ⟨.tvar sX, termP, .tvar sO⟩ ∈
        gRep.triples := by
  apply indexJoin_bgpEvaluation_extension_and_matching.2.1 [Bindings.empty]
    ⟨.tvar sX, termP, .tvar sO⟩ gRep ⟨[(sX, termA), (sO, termB)], none⟩
  · intro mu hmu
    rw [List.mem_singleton.mp hmu]
    constructor
    · simp [Bindings.keys, Bindings.empty]
    · intro k v hk
      simp [Bindings.get, Bindings.empty] at hk
  · decide
  · have hcomp : indexJoin [Bindings.empty] ⟨.tvar sX, termP, .tvar sO⟩ gRep =
        [Except.ok ⟨[(sX, termA), (sO, termB)], none⟩] := rfl
    rw [hcomp]
    exact List.mem_singleton.mpr rfl

theorem groupRank_cases (g : PatternGroup) :
    groupRank g = 0 ∨ groupRank g = 1 ∨ groupRank g = 3 ∨ groupRank g = 4 ∨
      groupRank g = 5 := by
  cases g with
  | graphG name =>
    by_cases h : name.isVariable = true
    · right; right; right; right
      simp [groupRank, h]
    · left
      simp [groupRank, Bool.eq_false_iff.mpr h]
  | bgpG ts => left; rfl
  | valuesG => right; right; left; rfl
  | filterG => right; right; right; left; rfl
  | groupG => right; left; rfl
  | optionalG => right; left; rfl
  | unionG => right; left; rfl
  | minusG => right; left; rfl
  | serviceG => right; left; rfl
  | bindG => right; left; rfl

theorem count_filter_rank (l : List PatternGroup) (a : PatternGroup) (r : Nat) :
    (l.filter (fun g => groupRank g == r)).count a =
      if (groupRank a == r) = true then l.count a else 0 := by
  by_cases h : (groupRank a == r) = true
  · rw [if_pos h]
    exact List.count_filter h
  · rw [if_neg h]
    apply List.count_eq_zero.mpr
    intro hmem
    exact h (List.mem_filter.mp hmem).2

theorem sortGroups_perm (l : List PatternGroup) : List.Perm (sortGroups l) l := by
  apply List.perm_iff_count.mpr
  intro a
  unfold sortGroups
  simp only [List.count_append]
  rw [count_filter_rank l a 0, count_filter_rank l a 1, count_filter_rank l a 3,
    count_filter_rank l a 4, count_filter_rank l a 5]
  rcases groupRank_cases a with h|h|h|h|h <;> simp [h]

theorem mem_filter_rank (l : List PatternGroup) (r : Nat) (g : PatternGroup)
    (hg : g ∈ l.filter (fun x => groupRank x == r)) : groupRank g = r := by
  have := (List.mem_filter.mp hg).2
  simpa using this

theorem pairwise_filter_rank (l : List PatternGroup) (r : Nat) :
    (l.filter (fun x => groupRank x == r)).Pairwise
      (fun a b => groupRank a ≤ groupRank b) := by
  apply List.pairwise_of_forall_mem_list
  intro a ha b hb
  rw [mem_filter_rank l r a ha, mem_filter_rank l r b hb]

theorem sortGroups_sorted (l : List PatternGroup) :
    (sortGroups l).Pairwise (fun a b => groupRank a ≤ groupRank b) := by
  unfold sortGroups
  apply List.pairwise_append.mpr
  refine ⟨?_, pairwise_filter_rank l 5, ?_⟩
  · apply List.pairwise_append.mpr
    refine ⟨?_, pairwise_filter_rank l 4, ?_⟩
    · apply List.pairwise_append.mpr
      refine ⟨?_, pairwise_filter_rank l 3, ?_⟩
      · apply List.pairwise_append.mpr
        refine ⟨pairwise_filter_rank l 0, pairwise_filter_rank l 1, ?_⟩
        intro a ha b hb
        rw [mem_filter_rank l 0 a ha, mem_filter_rank l 1 b hb]
        omega
      · intro a ha b hb
        rw [mem_filter_rank l 3 b hb]
        rcases List.mem_append.mp ha with h0 | h1
        · rw [mem_filter_rank l 0 a h0]; omega
        · rw [mem_filter_rank l 1 a h1]; omega
    · intro a ha b hb
      rw [mem_filter_rank l 4 b hb]
      rcases List.mem_append.mp ha with h01 | h3
      · rcases List.mem_append.mp h01 with h0 | h1
        · rw [mem_filter_rank l 0 a h0]; omega
        · rw [mem_filter_rank l 1 a h1]; omega
      · rw [mem_filter_rank l 3 a h3]; omega
  · intro a ha b hb
    rw [mem_filter_rank l 5 b hb]
    rcases List.mem_append.mp ha with h013 | h4
    · rcases List.mem_append.mp h013 with h01 | h3
      · rcases List.mem_append.mp h01 with h0 | h1
        · rw [mem_filter_rank l 0 a h0]; omega
        · rw [mem_filter_rank l 1 a h1]; omega
      · rw [mem_filter_rank l 3 a h3]; omega
    · rw [mem_filter_rank l 4 a h4]; omega

theorem filter_rank_filter_rank (l : List PatternGroup) (k r : Nat) :
    (l.filter (fun g => groupRank g == k)).filter (fun g => groupRank g == r) =
      if k = r then l.filter (fun g => groupRank g == r) else [] := by
  by_cases hkr : k = r
  · subst hkr
    rw [if_pos rfl, List.filter_filter]
    apply List.filter_congr
    intro a _
    exact Bool.and_self _
  · rw [if_neg hkr]
    apply List.filter_eq_nil_iff.mpr
    intro g hg hc
    have hk := mem_filter_rank l k g hg
    have hr : groupRank g = r := by simpa using hc
    exact hkr (hk ▸ hr)

theorem sortGroups_stable (l : List PatternGroup) (r : Nat) :
    (sortGroups l).filter (fun g => groupRank g == r) =
      l.filter (fun g => groupRank g == r) := by
  unfold sortGroups
  rw [List.filter_append, List.filter_append, List.filter_append, List.filter_append,
    filter_rank_filter_rank l 0 r, filter_rank_filter_rank l 1 r,
    filter_rank_filter_rank l 3 r, filter_rank_filter_rank l 4 r,
    filter_rank_filter_rank l 5 r]
  by_cases h0 : (0 : Nat) = r
  · subst h0; simp
  by_cases h1 : (1 : Nat) = r
  · subst h1; simp
  by_cases h3 : (3 : Nat) = r
  · subst h3; simp
  by_cases h4 : (4 : Nat) = r
  · subst h4; simp
  by_cases h5 : (5 : Nat) = r
  · subst h5; simp
  rw [if_neg h0, if_neg h1, if_neg h3, if_neg h4, if_neg h5]
  have hnil : l.filter (fun g => groupRank g == r) = [] := by
    apply List.filter_eq_nil_iff.mpr
    intro g _ hc
    have hr : groupRank g = r := by simpa using hc
    rcases groupRank_cases g with h|h|h|h|h <;> rw [h] at hr <;>
      first
        | exact h0 hr
        | exact h1 hr
        | exact h3 hr
        | exact h4 hr
        | exact h5 hr
  rw [hnil]
  rfl

theorem specMerge_cons_cons_bgp (ts us : List Triple) (rest : List PatternGroup) :
    specMerge (.bgpG ts :: .bgpG us :: rest) = specMerge (.bgpG (ts ++ us) :: rest) := by
  cases hsm : specMerge rest with
  | nil => simp [specMerge, hsm]
  | cons hd tl => cases hd <;> simp [specMerge, hsm, List.append_assoc]

theorem mergeGo_spec (rest : List PatternGroup) :
    ∀ cur, mergeGo cur rest = specMerge (cur :: rest) := by
  induction rest with
  | nil => intro cur; cases cur <;> rfl
  | cons g2 rest2 ih =>
    intro cur
    cases cur with
    | bgpG ts =>
      cases g2 with
      | bgpG us =>
        have h1 : mergeGo (.bgpG ts) (.bgpG us :: rest2) =
            mergeGo (.bgpG (ts ++ us)) rest2 := rfl
        rw [h1, ih, specMerge_cons_cons_bgp]
      | graphG nm => simp [mergeGo, ih, specMerge]
      | valuesG => simp [mergeGo, ih, specMerge]
      | filterG => simp [mergeGo, ih, specMerge]
      | groupG => simp [mergeGo, ih, specMerge]
      | optionalG => simp [mergeGo, ih, specMerge]
      | unionG => simp [mergeGo, ih, specMerge]
      | minusG => simp [mergeGo, ih, specMerge]
      | serviceG => simp [mergeGo, ih, specMerge]
      | bindG => simp [mergeGo, ih, specMerge]
    | graphG nm => cases g2 <;> simp [mergeGo, ih, specMerge]
    | valuesG => cases g2 <;> simp [mergeGo, ih, specMerge]
    | filterG => cases g2 <;> simp [mergeGo, ih, specMerge]
    | groupG => cases g2 <;> simp [mergeGo, ih, specMerge]
    | optionalG => cases g2 <;> simp [mergeGo, ih, specMerge]
    | unionG => cases g2 <;> simp [mergeGo, ih, specMerge]
    | minusG => cases g2 <;> simp [mergeGo, ih, specMerge]
    | serviceG => cases g2 <;> simp [mergeGo, ih, specMerge]
    | bindG => cases g2 <;> simp [mergeGo, ih, specMerge]

theorem mergeBGPs_eq_specMerge (l : List PatternGroup) :
    mergeBGPs l = specMerge l := by
  cases l with
  | nil => rfl
  | cons g rest => exact mergeGo_spec rest g

/-- C7: the plan builder orders WHERE-clause groups by the rank of
_buildWhere, with BGPs and graph clauses with a constant IRI at 0, generic
groups at 1, VALUES at 3, FILTER at 4 and graph clauses with a variable at
5; the order is a stable-by-rank permutation of the input, and afterwards
(on the path taken when no VALUES clause is present) every run of
consecutive BGP groups is merged into a single BGP whose triple list is the
concatenation in order, as captured by the specification-side specMerge. -/
theorem buildWhere_orders_and_merges_groups :
    (∀ ts, groupRank (.bgpG ts) = 0) ∧
    (∀ s, groupRank (.graphG (.iri s)) = 0) ∧
    (∀ s, groupRank (.graphG (.tvar s)) = 5) ∧
    groupRank .valuesG = 3 ∧
    groupRank .filterG = 4 ∧
    groupRank .groupG = 1 ∧ groupRank .optionalG = 1 ∧ groupRank .unionG = 1 ∧
    groupRank .minusG = 1 ∧ groupRank .serviceG = 1 ∧ groupRank .bindG = 1 ∧
    (∀ l, List.Perm (sortGroups l) l) ∧
    (∀ l, (sortGroups l).Pairwise (fun a b => groupRank a ≤ groupRank b)) ∧
    (∀ (l : List PatternGroup) (r : Nat),
      (sortGroups l).filter (fun g => groupRank g == r) =
        l.filter (fun g => groupRank g == r)) ∧
    (∀ l, whereMerged l = specMerge (sortGroups l)) :=
  ⟨fun ts => rfl, fun s => rfl, fun s => rfl, rfl, rfl, rfl, rfl, rfl, rfl, rfl, rfl,
    sortGroups_perm, sortGroups_sorted, sortGroups_stable,
    fun l => mergeBGPs_eq_specMerge (sortGroups l)⟩

/-- Success discriminator for the FTS validation result. -/
def exceptIsOk : Except FtsErr FTSParams → Bool
  | .ok _ => true
  | .error _ => false

/-- A magic triple on which the validation step raises a SyntaxError,
whatever the accumulated parameters are. -/
def ftsStepFails (queryVariable : Term) (t : Triple) : Bool :=
  !(exceptIsOk (ftsStep queryVariable initFTS t))

/-- The parameters produced by one validation step when it succeeds; the
input parameters when it fails. -/
def ftsStepD (queryVariable : Term) (st : FTSParams) (t : Triple) : FTSParams :=
  match ftsStep queryVariable st t with
  | .ok st2 => st2
  | .error _ => st

theorem ftsStep_isOk_state (queryVariable : Term) (t : Triple)
    (st1 st2 : FTSParams) :
    exceptIsOk (ftsStep queryVariable st1 t) =
      exceptIsOk (ftsStep queryVariable st2 t) := by
  unfold ftsStep
  by_cases hs : t.subject ≠ queryVariable
  · rw [if_pos hs, if_pos hs]
  · rw [if_neg hs, if_neg hs]
    cases ftsCheck t <;> rfl

theorem ftsFold_error_of_fail (queryVariable : Term) (ts : List Triple)
    (h : ∃ t ∈ ts, ftsStepFails queryVariable t = true) :
    ∀ st, ∃ e, ftsFold queryVariable ts st = .error e := by
  induction ts with
  | nil =>
    rcases h with ⟨t, ht, _⟩
    exact absurd ht (by simp)
  | cons t rest ih =>
    intro st
    cases hs : ftsStep queryVariable st t with
    | error e => exact ⟨e, by simp [ftsFold, hs]⟩
    | ok st2 =>
      have hnotfail : ftsStepFails queryVariable t = false := by
        unfold ftsStepFails
        have heq := ftsStep_isOk_state queryVariable t initFTS st
        rw [hs] at heq
        rw [heq]
        rfl
      rcases h with ⟨t2, ht2, hf⟩
      have ht2r : t2 ∈ rest := by
        rcases List.mem_cons.mp ht2 with he | hr
        · exfalso
          subst he
          rw [hnotfail] at hf
          exact Bool.noConfusion hf
        · exact hr
      rcases ih ⟨t2, ht2r, hf⟩ st2 with ⟨e, he⟩
      exact ⟨e, by simp [ftsFold, hs, he]⟩

theorem ftsFold_ok_of_all (queryVariable : Term) (ts : List Triple)
    (h : ∀ t ∈ ts, ftsStepFails queryVariable t = false) :
    ∀ st, ftsFold queryVariable ts st =
      .ok (ts.foldl (ftsStepD queryVariable) st) := by
  induction ts with
  | nil => intro st; rfl
  | cons t rest ih =>
    intro st
    have hok : exceptIsOk (ftsStep queryVariable st t) = true := by
      have heq := ftsStep_isOk_state queryVariable t st initFTS
      have hft := h t (List.mem_cons_self t rest)
      unfold ftsStepFails at hft
      rw [heq]
      simpa using hft
    cases hs : ftsStep queryVariable st t with
    | error e =>
      rw [hs] at hok
      exact absurd hok (by simp [exceptIsOk])
    | ok st2 =>
      have hD : ftsStepD queryVariable st t = st2 := by simp [ftsStepD, hs]
      rw [List.foldl_cons, hD]
      have := ih (fun t2 h2 => h t2 (List.mem_cons_of_mem t h2)) st2
      simpa [ftsFold, hs] using this

theorem buildFTS_isOk_iff_ordering (queryVariable : Term) (ts : List Triple)
    (h : ∀ t ∈ ts, ftsStepFails queryVariable t = false) :
    exceptIsOk (buildFullTextSearch queryVariable ts) =
      ftsOrderingOk (ts.foldl (ftsStepD queryVariable) initFTS) := by
  unfold buildFullTextSearch
  rw [ftsFold_ok_of_all queryVariable ts h initFTS]
  set st := ts.foldl (ftsStepD queryVariable) initFTS with hst
  rcases hms : st.minScore with _ | a <;>
    rcases hmx : st.maxScore with _ | b <;>
      rcases hmr : st.minRank with _ | c <;>
        rcases hxr : st.maxRank with _ | d <;>
          simp only [hms, hmx, hmr, hxr, ftsOrderingOk, exceptIsOk] <;>
            first
              | rfl
              | (split_ifs <;> simp_all [exceptIsOk])

/-- Object of a rank bound that is not a non-negative integer in the sense of
the validation: an unparsable number, a non-integer, or a negative one. -/
def badRankObj (t : Triple) : Bool :=
  match jsNumber t.object.value with
  | none => true
  | some q => !(ratIsInteger q && !(q < 0))

theorem relevance_parse_fail_steps (queryVariable : Term) (t : Triple)
    (hp : (t.predicate.value == sesMinRelevance ||
      t.predicate.value == sesMaxRelevance) = true)
    (hn : jsNumber t.object.value = none) :
    ftsStepFails queryVariable t = true := by
  unfold ftsStepFails ftsStep
  by_cases hs : t.subject ≠ queryVariable
  · rw [if_pos hs]
    rfl
  · rw [if_neg hs]
    suffices hch : ∃ e, ftsCheck t = .error e by
      rcases hch with ⟨e, he⟩
      rw [he]
      rfl
    rcases Bool.or_eq_true_iff.mp hp with h | h
    · have hval : t.predicate.value = sesMinRelevance := beq_iff_eq.mp h
      unfold ftsCheck
      rw [hval, if_neg (by decide), if_neg (by decide), if_pos (by decide)]
      cases ho : t.object with
      | lit v dt lg =>
        rw [ho] at hn
        simp only [Term.value] at hn
        dsimp only
        rw [hn]
        exact ⟨.notNumber, rfl⟩
      | iri s => exact ⟨.notLiteral, rfl⟩
      | blank s => exact ⟨.notLiteral, rfl⟩
      | tvar n => exact ⟨.notLiteral, rfl⟩
      | unbound => exact ⟨.notLiteral, rfl⟩
    · have hval : t.predicate.value = sesMaxRelevance := beq_iff_eq.mp h
      unfold ftsCheck
      rw [hval, if_neg (by decide), if_neg (by decide), if_neg (by decide),
        if_pos (by decide)]
      cases ho : t.object with
      | lit v dt lg =>
        rw [ho] at hn
        simp only [Term.value] at hn
        dsimp only
        rw [hn]
        exact ⟨.notNumber, rfl⟩
      | iri s => exact ⟨.notLiteral, rfl⟩
      | blank s => exact ⟨.notLiteral, rfl⟩
      | tvar n => exact ⟨.notLiteral, rfl⟩
      | unbound => exact ⟨.notLiteral, rfl⟩

theorem rank_invalid_steps (queryVariable : Term) (t : Triple)
    (hp : (t.predicate.value == sesMinRank ||
      t.predicate.value == sesMaxRank) = true)
    (hb : badRankObj t = true) :
    ftsStepFails queryVariable t = true := by
  unfold ftsStepFails ftsStep
  by_cases hs : t.subject ≠ queryVariable
  · rw [if_pos hs]
    rfl
  · rw [if_neg hs]
    suffices hch : ∃ e, ftsCheck t = .error e by
      rcases hch with ⟨e, he⟩
      rw [he]
      rfl
    unfold badRankObj at hb
    rcases Bool.or_eq_true_iff.mp hp with h | h
    · have hval : t.predicate.value = sesMinRank := beq_iff_eq.mp h
      unfold ftsCheck
      rw [hval, if_neg (by decide), if_neg (by decide), if_neg (by decide),
        if_neg (by decide), if_pos (by decide)]
      cases ho : t.object with
      | lit v dt lg =>
        rw [ho] at hb
        simp only [Term.value] at hb
        dsimp only
        cases hj : jsNumber v with
        | none => exact ⟨.notPositiveInteger, rfl⟩
        | some q =>
          rw [hj] at hb
          dsimp only at hb ⊢
          have hq : (ratIsInteger q && !(q < 0)) = false := by
            cases hX : (ratIsInteger q && !(q < 0)) with
            | false => rfl
            | true => rw [hX] at hb; exact absurd hb (by simp)
          rw [if_neg (by simp [hq])]
          exact ⟨.notPositiveInteger, rfl⟩
      | iri s => exact ⟨.notLiteral, rfl⟩
      | blank s => exact ⟨.notLiteral, rfl⟩
      | tvar n => exact ⟨.notLiteral, rfl⟩
      | unbound => exact ⟨.notLiteral, rfl⟩
    · have hval : t.predicate.value = sesMaxRank := beq_iff_eq.mp h
      unfold ftsCheck
      rw [hval, if_neg (by decide), if_neg (by decide), if_neg (by decide),
        if_neg (by decide), if_neg (by decide), if_pos (by decide)]
      cases ho : t.object with
      | lit v dt lg =>
        rw [ho] at hb
        simp only [Term.value] at hb
        dsimp only
        cases hj : jsNumber v with
        | none => exact ⟨.notPositiveInteger, rfl⟩
        | some q =>
          rw [hj] at hb
          dsimp only at hb ⊢
          have hq : (ratIsInteger q && !(q < 0)) = false := by
            cases hX : (ratIsInteger q && !(q < 0)) with
            | false => rfl
            | true => rw [hX] at hb; exact absurd hb (by simp)
          rw [if_neg (by simp [hq])]
          exact ⟨.notPositiveInteger, rfl⟩
      | iri s => exact ⟨.notLiteral, rfl⟩
      | blank s => exact ⟨.notLiteral, rfl⟩
      | tvar n => exact ⟨.notLiteral, rfl⟩
      | unbound => exact ⟨.notLiteral, rfl⟩

/-- C8 amended: the full-text-search parameter validation raises a
SyntaxError exactly on the validation rules of the source: it fails whenever
some magic triple fails its per-triple validation (subject not the query
variable, non-literal object for search or a numeric bound, unparsable
number for a relevance bound, rank bound not a non-negative integer,
non-variable object for relevance or rank), in particular whenever a
relevance bound fails to parse as a number or a rank bound is not a
non-negative integer; and when every magic triple passes, the stage is built
without error exactly when the final minimum relevance does not exceed the
final maximum relevance and the final minimum rank does not exceed the final
maximum rank. -/
theorem fts_validation_characterization (queryVariable : Term)
    (ts : List Triple) :
    ((∃ t ∈ ts, ftsStepFails queryVariable t = true) →
      ∃ e, buildFullTextSearch queryVariable ts = .error e) ∧
    ((∀ t ∈ ts, ftsStepFails queryVariable t = false) →
      exceptIsOk (buildFullTextSearch queryVariable ts) =
        ftsOrderingOk (ts.foldl (ftsStepD queryVariable) initFTS)) ∧
    (∀ t, (t.predicate.value == sesMinRelevance ||
        t.predicate.value == sesMaxRelevance) = true →
      jsNumber t.object.value = none → ftsStepFails queryVariable t = true) ∧
    (∀ t, (t.predicate.value == sesMinRank ||
        t.predicate.value == sesMaxRank) = true →
      badRankObj t = true → ftsStepFails queryVariable t = true) := by
  refine ⟨?_, buildFTS_isOk_iff_ordering queryVariable ts,
    relevance_parse_fail_steps queryVariable, rank_invalid_steps queryVariable⟩
  intro h
  rcases ftsFold_error_of_fail queryVariable ts h initFTS with ⟨e, he⟩
  exact ⟨e, by simp [buildFullTextSearch, he]⟩

/-- C8 amended witness: with no magic triples the validation succeeds and the
final ordering checks hold trivially. -/
theorem fts_validation_characterization_witness :
    exceptIsOk (buildFullTextSearch (Term.tvar sO) []) =
      ftsOrderingOk (([] : List Triple).foldl (ftsStepD (Term.tvar sO)) initFTS) :=
  (fts_validation_characterization (Term.tvar sO) []).2.1
    (fun t ht => absurd ht (by simp))

/-- First error condition listed by the claim: a numeric object of a
relevance bound fails to parse as a number. -/
def c8cond1 (ts : List Triple) : Bool :=
  ts.any (fun t =>
    (t.predicate.value == sesMinRelevance || t.predicate.value == sesMaxRelevance) &&
      (jsNumber t.object.value).isNone)

/-- Second error condition listed by the claim: a rank bound object is not a
non-negative integer. -/
def c8cond2 (ts : List Triple) : Bool :=
  ts.any (fun t =>
    (t.predicate.value == sesMinRank || t.predicate.value == sesMaxRank) &&
      badRankObj t)

/-- The parsed numeric object of the last magic triple carrying a given
predicate, if any. -/
def lastObjNum (predValue : String) (ts : List Triple) : Option Rat :=
  ((ts.filter (fun t => t.predicate.value == predValue)).getLast?).bind
    (fun t => jsNumber t.object.value)

/-- Third error condition listed by the claim: the minimum relevance exceeds
the maximum relevance. -/
def c8cond3 (ts : List Triple) : Bool :=
  match lastObjNum sesMinRelevance ts, lastObjNum sesMaxRelevance ts with
  | some a, some b => decide (b < a)
  | _, _ => false

/-- Fourth error condition listed by the claim: the minimum rank exceeds the
maximum rank. -/
def c8cond4 (ts : List Triple) : Bool :=
  match lastObjNum sesMinRank ts, lastObjNum sesMaxRank ts with
  | some a, some b => decide (b < a)
  | _, _ => false

/-- A magic triple with the search predicate and an IRI object. -/
def ftsBadTriple : Triple := ⟨.tvar sO, .iri sesSearch, .iri sX⟩

/-- C8 counterexample: a search magic triple whose object is an IRI raises a
SyntaxError (the object of a search magic triple must be an RDF Literal,
bgp-stage-builder.ts 910), yet none of the four error conditions listed by
the claim holds for it, so the claim that the stage is otherwise built
without error is false. -/
theorem fts_error_outside_claimed_conditions :
    (∃ e, buildFullTextSearch (Term.tvar sO) [ftsBadTriple] = .error e) ∧
    c8cond1 [ftsBadTriple] = false ∧ c8cond2 [ftsBadTriple] = false ∧
    c8cond3 [ftsBadTriple] = false ∧ c8cond4 [ftsBadTriple] = false :=
  ⟨⟨.notLiteral, rfl⟩, rfl, rfl, rfl, rfl⟩
